import Mathlib

/-!
Verification development for the layout segmentation engine of the
Test2img repository (src/src/pattern_matcher.py, src/src/ocr_text_merger.py,
src/src/question_extractor.py, src/src/layout_analyzer.py).

The Python code is shallowly embedded: recognized OCR lines carry a
quadrilateral bounding box with exact rational coordinates (idealizing the
floating point coordinates of the source), texts are lists of characters,
and the stateful page traversal is explicit state passing.  Python dict
records are modelled as a structure with Option fields for keys that may be
absent.  Python `int()` truncation toward zero is `pyInt`.  The default
`Config` is used throughout: `Config` never defines `question_primary_type`,
so `getattr(config, 'question_primary_type', 'chinese')` always yields
`'chinese'` and `prefer_chinese_primary` is `True`; the corresponding dead
branches of the extractor are not modelled.
-/

/-- Python `int()` truncation toward zero on an exact rational. -/
def pyInt (q : ℚ) : ℤ := q.num.tdiv q.den

/-- Characters stripped by Python `str.strip()` (the whitespace relevant
to this code base, including the ideographic space U+3000). -/
def pyWhitespaceChar (c : Char) : Bool :=
  c = ' ' || c = '\t' || c = '\n' || c = '\r' ||
  c = Char.ofNat 11 || c = Char.ofNat 12 || c = Char.ofNat 0x3000

/-- Python `str.strip()` on a character list. -/
def pyStrip (s : List Char) : List Char :=
  ((s.dropWhile pyWhitespaceChar).reverse.dropWhile pyWhitespaceChar).reverse

/-- The CJK numerals of the pattern `^[一二三四五六七八九十]+[、．]`. -/
def isChineseDigitChar (c : Char) : Bool :=
  c = '一' || c = '二' || c = '三' || c = '四' || c = '五' ||
  c = '六' || c = '七' || c = '八' || c = '九' || c = '十'

/-- Separator glyphs of the major-heading pattern. -/
def chineseSepChar (c : Char) : Bool := c = '、' || c = '．'

/-- After a first CJK numeral: skip the (greedy) numeral run, then require a
separator glyph.  The separator glyphs are not CJK numerals, so this equals
the regex `[一二三四五六七八九十]+[、．]` continuation. -/
def chineseAfterDigits : List Char → Bool
  | [] => false
  | c :: cs => if isChineseDigitChar c then chineseAfterDigits cs else chineseSepChar c

/-- Anchored match of `^[一二三四五六七八九十]+[、．]`. -/
def chineseHeadMatch : List Char → Bool
  | [] => false
  | c :: cs => isChineseDigitChar c && chineseAfterDigits cs

/-- `PatternMatcher.is_chinese_number_question` with the default config. -/
def isChineseNumberQuestion (text : List Char) : Bool :=
  chineseHeadMatch (pyStrip text)

/-- After a first ASCII digit: skip the digit run, then require a dot and a
following non-whitespace character, per `^\d+\.\S+`. -/
def subAfterDigits : List Char → Bool
  | [] => false
  | c :: cs =>
    if c.isDigit then subAfterDigits cs
    else c = '.' && (match cs with
      | d :: _ => !(pyWhitespaceChar d)
      | [] => false)

/-- Anchored match of `^\d+\.\S+`. -/
def subHeadMatch : List Char → Bool
  | [] => false
  | c :: cs => c.isDigit && subAfterDigits cs

/-- `PatternMatcher.is_sub_question` with the default config. -/
def isSubQuestion (text : List Char) : Bool :=
  subHeadMatch (pyStrip text)

/-- Opening character class `[（(）)\[\]]` of the nested-item patterns. -/
def nestedOpenChar (c : Char) : Bool :=
  c = '（' || c = '(' || c = '）' || c = ')' || c = '[' || c = ']'

/-- Closing character class `[）)\]）]` of the nested-item patterns. -/
def nestedCloseChar (c : Char) : Bool :=
  c = '）' || c = ')' || c = ']'

/-- Split off the leading ASCII digit run. -/
def takeDigitRun : List Char → List Char × List Char
  | [] => ([], [])
  | c :: cs =>
    if c.isDigit then
      let p := takeDigitRun cs
      (c :: p.1, p.2)
    else ([], c :: cs)

/-- Decimal value of a digit run. -/
def digitsVal (ds : List Char) : ℕ :=
  ds.foldl (fun a c => a * 10 + (c.toNat - 48)) 0

/-- Try the pattern `[（(）)\[\]][0-9]+[）)\]）]` anchored at the head of the
list, returning the enclosed number.  The closing class contains no digits,
so the greedy digit run needs no backtracking. -/
def tryNestedAt : List Char → Option ℕ
  | [] => none
  | c :: cs =>
    if nestedOpenChar c then
      match takeDigitRun cs with
      | ([], _) => none
      | (ds, d :: _) => if nestedCloseChar d then some (digitsVal ds) else none
      | (_, []) => none
    else none

/-- `PatternMatcher.is_nested_sub_question` with the default config
(anchored `match` of `^[（(）)\[\]][0-9]+[）)\]）]`). -/
def isNestedSubQuestion (text : List Char) : Bool :=
  (tryNestedAt (pyStrip text)).isSome

/-- Leftmost `re.search` of the bracketed-number pattern. -/
def searchNested : List Char → Option ℕ
  | [] => none
  | c :: cs =>
    match tryNestedAt (c :: cs) with
    | some n => some n
    | none => searchNested cs

/-- `PatternMatcher.extract_nested_sub_number`. -/
def extractNestedSubNumber (text : List Char) : Option ℕ :=
  searchNested (pyStrip text)

/-- Prefix test on character lists. -/
def listStartsWith : List Char → List Char → Bool
  | [], _ => true
  | _ :: _, [] => false
  | c :: p, d :: t => c = d && listStartsWith p t

/-- The question-type-title alternative
`^(选择题|填空题|简答题|计算题|阅读理解|解答题)` of the question patterns. -/
def questionTypeHead (t : List Char) : Bool :=
  listStartsWith ['选', '择', '题'] t || listStartsWith ['填', '空', '题'] t ||
  listStartsWith ['简', '答', '题'] t || listStartsWith ['计', '算', '题'] t ||
  listStartsWith ['阅', '读', '理', '解'] t || listStartsWith ['解', '答', '题'] t

/-- `PatternMatcher.matches_pattern(text, 'question')` with the default
config question pattern list. -/
def matchesQuestionPattern (text : List Char) : Bool :=
  let t := pyStrip text
  chineseHeadMatch t || subHeadMatch t || questionTypeHead t

/-- A quadrilateral OCR bounding polygon (four points, rational pixel
coordinates). -/
structure Quad where
  p1 : ℚ × ℚ
  p2 : ℚ × ℚ
  p3 : ℚ × ℚ
  p4 : ℚ × ℚ
deriving DecidableEq

/-- The x coordinates of the four corners. -/
def Quad.xList (b : Quad) : List ℚ := [b.p1.1, b.p2.1, b.p3.1, b.p4.1]

/-- The y coordinates of the four corners. -/
def Quad.yList (b : Quad) : List ℚ := [b.p1.2, b.p2.2, b.p3.2, b.p4.2]

/-- `min(x_coords)`. -/
def Quad.xMin (b : Quad) : ℚ := min b.p1.1 (min b.p2.1 (min b.p3.1 b.p4.1))

/-- `max(x_coords)`. -/
def Quad.xMax (b : Quad) : ℚ := max b.p1.1 (max b.p2.1 (max b.p3.1 b.p4.1))

/-- `min(y_coords)`. -/
def Quad.yMin (b : Quad) : ℚ := min b.p1.2 (min b.p2.2 (min b.p3.2 b.p4.2))

/-- `max(y_coords)`. -/
def Quad.yMax (b : Quad) : ℚ := max b.p1.2 (max b.p2.2 (max b.p3.2 b.p4.2))

/-- `np.mean(y_coords)` over the four corners. -/
def Quad.yCenter (b : Quad) : ℚ := (b.p1.2 + b.p2.2 + b.p3.2 + b.p4.2) / 4

/-- One recognized OCR line `[box, (text, confidence)]`. -/
structure OcrLine where
  box : Quad
  text : List Char
  conf : ℚ
deriving DecidableEq

/-- `OCRTextMerger.line_y_threshold` (fixed at construction). -/
def lineYThreshold : ℚ := 10

/-- Two fragments lie on the same visual line per the code: the absolute
difference of their vertical centers is at most the fixed threshold. -/
def sameLineClose (a b : OcrLine) : Bool :=
  |a.box.yCenter - b.box.yCenter| ≤ lineYThreshold

/-- Stable insertion for `sorted(..., key=...)`: the new element goes in
front of the first position whose key is not smaller, so elements with equal
keys keep their input order. -/
def sortInsertKey (key : OcrLine → ℚ) (l : OcrLine) :
    List OcrLine → List OcrLine
  | [] => [l]
  | x :: xs => if key x < key l then x :: sortInsertKey key l xs else l :: x :: xs

/-- Stable sort by a rational key, the behaviour of Python `sorted`. -/
def sortByKey (key : OcrLine → ℚ) : List OcrLine → List OcrLine
  | [] => []
  | x :: xs => sortInsertKey key x (sortByKey key xs)

/-- Stable sort of the recognition result by ascending `y_min`
(`sorted(..., key=lambda x: min(y))`). -/
def sortByYMin : List OcrLine → List OcrLine := sortByKey (fun l => l.box.yMin)

/-- Stable sort of a cluster by ascending `x_min`
(`sorted(line_texts, key=lambda x: min(x))`). -/
def sortByXMin : List OcrLine → List OcrLine := sortByKey (fun l => l.box.xMin)

/-- Concatenation `"".flatten(...)` of the fragment texts. -/
def joinTexts (ls : List OcrLine) : List Char := (ls.map (·.text)).flatten

/-- Sum of the fragment confidences (the `np.mean` numerator). -/
def confSum (ls : List OcrLine) : ℚ := (ls.map (·.conf)).sum

/-- `min` of a nonempty coordinate list (head-seeded fold). -/
def listMin1 : List ℚ → ℚ
  | [] => 0
  | x :: xs => xs.foldl min x

/-- `max` of a nonempty coordinate list (head-seeded fold). -/
def listMax1 : List ℚ → ℚ
  | [] => 0
  | x :: xs => xs.foldl max x

/-- All x coordinates of all fragment boxes of a cluster (`all_points`). -/
def clusterXs (ls : List OcrLine) : List ℚ := (ls.map (·.box.xList)).flatten

/-- All y coordinates of all fragment boxes of a cluster. -/
def clusterYs (ls : List OcrLine) : List ℚ := (ls.map (·.box.yList)).flatten

/-- `OCRTextMerger._merge_line_texts`: a single fragment passes through
unchanged; otherwise sort left-to-right by `x_min`, concatenate the texts,
average the confidence, and take the componentwise min/max bounding box of
all corner points. -/
def mergeLineTexts : List OcrLine → OcrLine
  | [] => ⟨⟨(0, 0), (0, 0), (0, 0), (0, 0)⟩, [], 0⟩
  | [l] => l
  | l :: l2 :: ls =>
    let sorted := sortByXMin (l :: l2 :: ls)
    let xmn := listMin1 (clusterXs sorted)
    let xmx := listMax1 (clusterXs sorted)
    let ymn := listMin1 (clusterYs sorted)
    let ymx := listMax1 (clusterYs sorted)
    ⟨⟨(xmn, ymn), (xmx, ymn), (xmx, ymx), (xmn, ymx)⟩,
      joinTexts sorted,
      confSum sorted / (sorted.length : ℚ)⟩

/-- The clustering loop of `merge_same_line_texts`: `cur` is the current
cluster in reverse (its head is the most recently appended fragment, the one
the next fragment is compared against), `acc` the merged output so far. -/
def mergeLoop : List OcrLine → List OcrLine → List OcrLine → List OcrLine
  | [], cur, acc => acc ++ [mergeLineTexts cur.reverse]
  | l :: rest, cur, acc =>
    match cur with
    | [] => mergeLoop rest [l] acc
    | c :: cs =>
      if sameLineClose l c then mergeLoop rest (l :: c :: cs) acc
      else mergeLoop rest [l] (acc ++ [mergeLineTexts (c :: cs).reverse])

/-- `OCRTextMerger.merge_same_line_texts`. -/
def mergeSameLineTexts (ocr : List OcrLine) : List OcrLine :=
  match sortByYMin ocr with
  | [] => []
  | l :: rest => mergeLoop rest [l] []

/-- Greedy growth of a cluster chain: take fragments while each is close to
the previous one, and return the grown part together with the remainder. -/
def chunkGrow (last : OcrLine) : List OcrLine → List OcrLine × List OcrLine
  | [] => ([], [])
  | l :: rest =>
    if sameLineClose l last then
      let p := chunkGrow l rest
      (l :: p.1, p.2)
    else ([], l :: rest)

theorem chunkGrow_snd_length (last : OcrLine) :
    ∀ ls : List OcrLine, (chunkGrow last ls).2.length ≤ ls.length := by
  intro ls
  induction ls generalizing last with
  | nil => simp [chunkGrow]
  | cons l rest ih =>
    simp only [chunkGrow]
    split
    · exact le_trans (ih l) (Nat.le_succ _)
    · exact le_refl _

/-- Decomposition of a (sorted) fragment list into maximal chains of
consecutively close fragments: the independent description of the clusters
that `merge_same_line_texts` merges. -/
def chainChunks : List OcrLine → List (List OcrLine)
  | [] => []
  | l :: rest => (l :: (chunkGrow l rest).1) :: chainChunks (chunkGrow l rest).2
termination_by ls => ls.length
decreasing_by
  exact Nat.lt_succ_of_le (chunkGrow_snd_length x xs)

/-- Question class tag: `question_type` of `'chinese' | 'sub' | 'other'`. -/
inductive QType
  | chinese
  | sub
  | other
deriving DecidableEq

/-- One question record, modelling the Python dict built by
`QuestionExtractor.extract_question_positions` and later mutated by
`LayoutAnalyzer.analyze_all_pages`.  Keys that may be absent are Options. -/
structure Question where
  startY : ℤ
  startX : ℤ := 0
  text : List Char
  page : ℕ
  isChineseQuestionFlag : Bool
  questionType : QType
  textHeight : ℤ
  nestedSubNumbers : List ℕ := []
  earlyEndY : Option ℤ := none
  earlyEndText : Option (List Char) := none
  crossPage : Bool := false
  crossPageTo : Option ℕ := none
  crossPageMerged : Bool := false
  crossPageEndPage : Option ℕ := none
  crossPageEndY : Option ℤ := none
  endY : Option ℤ := none
  endPage : Option ℕ := none
  potentialCrossPage : Bool := false
  imageHeight : Option ℤ := none
  imageWidth : Option ℤ := none
  nextQuestionY : Option ℤ := none
deriving DecidableEq

/-- Result dict of `QuestionExtractor._check_next_nested_sub_question`. -/
structure LookResult where
  foundNextNested : Bool
  crossPage : Bool := false
  crossPageTo : Option ℕ := none
  earlyEndY : Option ℤ := none
  earlyEndText : Option (List Char) := none
deriving DecidableEq

/-- The same-page part of the 3-line lookahead: scan the window for a nested
item numbered `expected`; stop when it is found; otherwise remember the first
line (of any class) as the provisional end.  `early` carries the already
recorded `(early_end_y, early_end_text)` pair. -/
def samePageScan (expected : ℕ) (early : Option (ℤ × List Char)) :
    List OcrLine → Option (ℤ × List Char) × Bool
  | [] => (early, false)
  | l :: rest =>
    if isNestedSubQuestion l.text then
      if extractNestedSubNumber l.text = some expected then (early, true)
      else
        samePageScan expected
          (match early with
           | some e => some e
           | none => some (pyInt l.box.yMin, l.text.take 30)) rest
    else
      samePageScan expected
        (match early with
         | some e => some e
         | none => some (pyInt l.box.yMin, l.text.take 30)) rest

/-- The next-page part of the lookahead: the loop only reacts to a nested
item numbered `expected` (the non-matching branch of the source performs no
state change), so it reduces to a search for the expected item. -/
def probeNextPage (expected : ℕ) : List OcrLine → Bool
  | [] => false
  | l :: rest =>
    if isNestedSubQuestion l.text then
      if extractNestedSubNumber l.text = some expected then true
      else probeNextPage expected rest
    else probeNextPage expected rest

/-- `QuestionExtractor._check_next_nested_sub_question`.  `after` is the list
of lines following the current nested item on its page; `allPages` returns
the OCR result of a page or `none` when the page dict has no entry (also
used for a missing `all_page_ocr_results`). -/
def checkNextNestedSubQuestion (after : List OcrLine) (nestedNumber : ℕ)
    (pageNum : ℕ) (allPages : ℕ → Option (List OcrLine)) (totalPages : ℕ) :
    LookResult :=
  let expected := nestedNumber + 1
  let window := after.take 3
  let scanned := samePageScan expected none window
  let base : LookResult :=
    { foundNextNested := scanned.2
      earlyEndY := scanned.1.map (·.1)
      earlyEndText := scanned.1.map (·.2) }
  if !scanned.2 && window.length < 3 then
    if pageNum + 1 ≤ totalPages then
      match allPages (pageNum + 1) with
      | some nextOcr =>
        if nextOcr ≠ [] then
          if probeNextPage expected (nextOcr.take (3 - window.length)) then
            { foundNextNested := true
              crossPage := true
              crossPageTo := some (pageNum + 1) }
          else base
        else base
      | none => base
    else base
  else base

/-- Traversal state of `extract_question_positions`: the emitted questions,
the per-page dedupe set `seen_start_positions`, the open record,
`is_chinese_question`, and the accumulated `nested_sub_numbers`. -/
structure ExtState where
  questions : List Question := []
  seen : List ℤ := []
  current : Option Question := none
  isChineseQuestionState : Bool := false
  nested : List ℕ := []
deriving DecidableEq

/-- The major-heading branch of the extractor loop (with the production
`prefer_chinese_primary = True`): flush the open record, reset the nested
accumulation, then either skip on a duplicate `start_y` or open a fresh
`chinese`-class record. -/
def handleChinese (l : OcrLine) (pageNum : ℕ) (st : ExtState) : ExtState :=
  let qs := st.questions ++ st.current.toList
  let yPos := pyInt l.box.yMin
  if yPos ∈ st.seen then
    { st with questions := qs, nested := [] }
  else
    { st with
      questions := qs
      nested := []
      seen := yPos :: st.seen
      current := some
        { startY := yPos
          text := l.text
          page := pageNum
          isChineseQuestionFlag := true
          questionType := QType.chinese
          textHeight := pyInt (l.box.yMax - l.box.yMin) }
      isChineseQuestionState := true }

/-- The minor-heading branch: under an open major heading the line only
accumulates; otherwise it flushes the open record and (unless the position
is a duplicate) opens a `sub`-class record. -/
def handleSub (l : OcrLine) (pageNum : ℕ) (st : ExtState) : ExtState :=
  if st.isChineseQuestionState && st.current.isSome then st
  else
    let qs := st.questions ++ st.current.toList
    let yPos := pyInt l.box.yMin
    if yPos ∈ st.seen then
      { st with questions := qs }
    else
      { st with
        questions := qs
        seen := yPos :: st.seen
        nested := []
        current := some
          { startY := yPos
            text := l.text
            page := pageNum
            isChineseQuestionFlag := false
            questionType := QType.sub
            textHeight := pyInt (l.box.yMax - l.box.yMin) }
        isChineseQuestionState := false }

/-- The folding of a lookahead result into the open record: with the next
nested number found the record is untouched; otherwise a provisional early
end is recorded or tightened, unless the record is cross-page marked or the
candidate does not exceed `start_y`. -/
def applyLookahead (cq2 : Question) (info : LookResult) : Question :=
  if !info.foundNextNested then
    if cq2.crossPage then cq2
    else
      match info.earlyEndY with
      | none => cq2
      | some e =>
        if e > cq2.startY then
          match cq2.earlyEndY with
          | none =>
            { cq2 with earlyEndY := some e, earlyEndText := info.earlyEndText }
          | some ex =>
            if e < ex ∧ e > cq2.startY then
              { cq2 with earlyEndY := some e, earlyEndText := info.earlyEndText }
            else cq2
        else cq2
  else cq2

/-- The nested-item branch: with no open record the line is dropped; with an
open record the extracted number is appended to the accumulation, the
lookahead runs, and its outcome is folded into the record (cross-page mark,
or a provisional early end per `applyLookahead`). -/
def handleNested (l : OcrLine) (rest : List OcrLine) (pageNum : ℕ)
    (allPages : ℕ → Option (List OcrLine)) (totalPages : ℕ)
    (st : ExtState) : ExtState :=
  match st.current with
  | none => st
  | some cq =>
    match extractNestedSubNumber l.text with
    | none => st
    | some n =>
      let nested1 := st.nested ++ [n]
      let cq1 := { cq with nestedSubNumbers := nested1 }
      let info := checkNextNestedSubQuestion rest n pageNum allPages totalPages
      let cq2 :=
        if info.crossPage then
          { cq1 with crossPage := true, crossPageTo := info.crossPageTo }
        else cq1
      { st with current := some (applyLookahead cq2 info), nested := nested1 }

/-- The other-question-marker branch: a pending provisional end that lies
below the new marker is pulled up to the marker, the open record is flushed,
and (unless the position is a duplicate) an `other`-class record opens. -/
def handleOther (l : OcrLine) (pageNum : ℕ) (st : ExtState) : ExtState :=
  let yPos := pyInt l.box.yMin
  let updated : Option Question :=
    match st.current with
    | none => none
    | some cq =>
      match cq.earlyEndY with
      | some ee =>
        if yPos < ee then
          some { cq with earlyEndY := some yPos, earlyEndText := some (l.text.take 30) }
        else some cq
      | none => some cq
  let qs := st.questions ++ updated.toList
  if yPos ∈ st.seen then
    { st with questions := qs, current := updated }
  else
    { st with
      questions := qs
      seen := yPos :: st.seen
      nested := []
      current := some
        { startY := yPos
          text := l.text
          page := pageNum
          isChineseQuestionFlag := false
          questionType := QType.other
          textHeight := pyInt (l.box.yMax - l.box.yMin) }
      isChineseQuestionState := false }

/-- One iteration of the extractor loop: dispatch on the classification of
the line, in the priority order of the source. -/
def processLine (l : OcrLine) (rest : List OcrLine) (pageNum : ℕ)
    (allPages : ℕ → Option (List OcrLine)) (totalPages : ℕ)
    (st : ExtState) : ExtState :=
  if isChineseNumberQuestion l.text then handleChinese l pageNum st
  else if isSubQuestion l.text then handleSub l pageNum st
  else if isNestedSubQuestion l.text then
    handleNested l rest pageNum allPages totalPages st
  else if matchesQuestionPattern l.text then handleOther l pageNum st
  else st

/-- The extractor loop over the remaining lines of the page. -/
def extractGo (pageNum : ℕ) (allPages : ℕ → Option (List OcrLine))
    (totalPages : ℕ) : List OcrLine → ExtState → ExtState
  | [], st => st
  | l :: rest, st =>
    extractGo pageNum allPages totalPages rest
      (processLine l rest pageNum allPages totalPages st)

/-- `QuestionExtractor.extract_question_positions`: traverse the page lines
and append the record still open at the end. -/
def extractQuestionPositions (ocrResult : List OcrLine) (pageNum : ℕ)
    (allPages : ℕ → Option (List OcrLine)) (totalPages : ℕ) : List Question :=
  let st := extractGo pageNum allPages totalPages ocrResult {}
  st.questions ++ st.current.toList

/-- One rasterized page: its pixel dimensions and its recognized lines. -/
structure PageData where
  height : ℤ
  width : ℤ
  lines : List OcrLine
deriving DecidableEq

/-- Default page for out-of-range indexing (never reached on the 1-based
indices produced by the traversal). -/
def dfltPage : PageData := ⟨0, 0, []⟩

/-- `images[p - 1]` style 1-based page access. -/
def getPageD (pages : List PageData) (p : ℕ) : PageData :=
  pages.getD (p - 1) dfltPage

/-- Python `max` of the accumulated nested numbers (callers guard against
the empty list, where Python would raise). -/
def maxList (l : List ℕ) : ℕ := l.foldl max 0

/-- `int(image.height * 0.97)`: the 97%-of-page-height footer cutoff. -/
def pct97 (h : ℤ) : ℤ := pyInt ((h : ℚ) * (97 / 100))

/-- `int(text_height * 0.3)`: the 30%-of-text-height crop margin. -/
def margin30 (th : ℤ) : ℤ := pyInt ((th : ℚ) * (3 / 10))

/-- The in-page merge scan of the cross-page resolver: walk the page lines
and append every nested item that matches the running expected number,
advancing the expectation after each match; returns the grown list and the
number of merges. -/
def scanMergeLines (expected : ℕ) (merged : List ℕ) (count : ℕ) :
    List OcrLine → List ℕ × ℕ
  | [] => (merged, count)
  | l :: rest =>
    if isNestedSubQuestion l.text then
      match extractNestedSubNumber l.text with
      | some m =>
        if m = expected then scanMergeLines (m + 1) (merged ++ [m]) (count + 1) rest
        else scanMergeLines expected merged count rest
      | none => scanMergeLines expected merged count rest
    else scanMergeLines expected merged count rest

/-- Find the first line of the resolving page whose nested number equals the
last accumulated one and return `int(max(y_coords))` of that line. -/
def findLastNestedEndY (lastNum : ℕ) : List OcrLine → Option ℤ
  | [] => none
  | l :: rest =>
    if isNestedSubQuestion l.text ∧ extractNestedSubNumber l.text = some lastNum then
      some (pyInt l.box.yMax)
    else findLastNestedEndY lastNum rest

/-- The candidate continuation pages probed after an in-page merge:
`range(page_idx + 1, min(page_idx + 3, total_pages + 1))`. -/
def continuationPages (pageIdx totalPages : ℕ) : List ℕ :=
  List.range' (pageIdx + 1) (min (pageIdx + 3) (totalPages + 1) - (pageIdx + 1))

/-- The pending-merge block at the head of the page loop of
`analyze_all_pages`: below the target page the pending tuple is kept; on or
past it the page is scanned for in-sequence nested items; with no match the
pending tuple survives untouched; with matches either a further continuation
page keeps it pending (advancing `cross_page_to`) or the merge finalizes,
recording the cross-page end position and emitting the record. -/
def resolvePending (pages : List PageData) (totalPages pageIdx : ℕ)
    (ocr : List OcrLine) (qp : Question × ℕ) :
    Option (Question × ℕ) × List (ℕ × Question) :=
  let q := qp.1
  let fromPage := qp.2
  let tgt := q.crossPageTo.getD pageIdx
  if pageIdx < tgt then (some qp, [])
  else
    let merged0 := q.nestedSubNumbers
    let expected0 := if merged0 = [] then 1 else maxList merged0 + 1
    let scanned := scanMergeLines expected0 merged0 0 ocr
    let q1 := { q with nestedSubNumbers := scanned.1 }
    if scanned.2 = 0 then (some (q1, fromPage), [])
    else
      let finalExpected := if scanned.1 = [] then 1 else maxList scanned.1 + 1
      match (continuationPages pageIdx totalPages).find?
          (fun p => probeNextPage finalExpected ((getPageD pages p).lines.take 3)) with
      | some p => (some ({ q1 with crossPageTo := some p }, fromPage), [])
      | none =>
        let q2 := { q1 with crossPage := false, crossPageTo := none }
        let q3 :=
          if ocr ≠ [] ∧ scanned.1 ≠ [] then
            match findLastNestedEndY (maxList scanned.1) ocr with
            | some y => { q2 with crossPageEndY := some y }
            | none => q2
          else q2
        let q4 :=
          { q3 with
            imageHeight := some (getPageD pages fromPage).height
            imageWidth := some (getPageD pages fromPage).width
            crossPageMerged := true
            crossPageEndPage := some pageIdx }
        (none, [(fromPage, q4)])

/-- Traversal state of the second phase of `analyze_all_pages`. -/
structure P2State where
  pending : Option (Question × ℕ) := none
  collected : List (ℕ × Question) := []
deriving DecidableEq

/-- Dispatch of one extracted question: a cross-page record replaces the
pending slot, any other record gets the page image dimensions and is
collected. -/
def collectQuestion (pages : List PageData) (pageIdx : ℕ) (st : P2State)
    (q : Question) : P2State :=
  if q.crossPage then { st with pending := some (q, pageIdx) }
  else
    { st with
      collected := st.collected ++
        [(pageIdx,
          { q with
            imageHeight := some (getPageD pages pageIdx).height
            imageWidth := some (getPageD pages pageIdx).width })] }

/-- The per-page body of the phase-2 loop. -/
def phase2Page (pages : List PageData) (totalPages : ℕ)
    (allPages : ℕ → Option (List OcrLine)) (pageIdx : ℕ) (st : P2State) :
    P2State :=
  let ocr := (getPageD pages pageIdx).lines
  let resolved :=
    match st.pending with
    | some qp => resolvePending pages totalPages pageIdx ocr qp
    | none => (none, [])
  let st1 : P2State :=
    { pending := resolved.1, collected := st.collected ++ resolved.2 }
  let qs := extractQuestionPositions ocr pageIdx allPages totalPages
  qs.foldl (collectQuestion pages pageIdx) st1

/-- The phase-2 loop over the 1-based page indices. -/
def phase2Go (pages : List PageData) (totalPages : ℕ)
    (allPages : ℕ → Option (List OcrLine)) : List ℕ → P2State → P2State
  | [], st => st
  | pageIdx :: rest, st =>
    phase2Go pages totalPages allPages rest
      (phase2Page pages totalPages allPages pageIdx st)

/-- The text-height refinement scan (step 3 of `analyze_all_pages`): collect
the positive heights of the lines from `start_y` on, stopping at the first
line past a truthy `end_y`. -/
def collectHeights (startY : ℤ) (endY : Option ℤ) : List OcrLine → List ℤ
  | [] => []
  | l :: rest =>
    if (startY : ℚ) ≤ l.box.yMin then
      if (match endY with
          | some e => decide (e ≠ 0) && decide ((e : ℚ) < l.box.yMin)
          | none => false) then []
      else
        let th := pyInt (l.box.yMax - l.box.yMin)
        if 0 < th then th :: collectHeights startY endY rest
        else collectHeights startY endY rest
    else collectHeights startY endY rest

/-- Python `min` of a nonempty integer list. -/
def intListMin1 : List ℤ → ℤ
  | [] => 0
  | x :: xs => xs.foldl min x

/-- Overwrite `text_height` with the minimum line height found inside the
question's span on its origin page (when any line qualifies). -/
def refineTextHeight (pages : List PageData) (pageNum : ℕ) (q : Question) :
    Question :=
  let hs := collectHeights q.startY q.endY (getPageD pages pageNum).lines
  if hs = [] then q else { q with textHeight := intListMin1 hs }

/-- The end-resolution body (step 4 of `analyze_all_pages`) for one
collected entry, given the following entry when one exists. -/
def finalizeStep (pages : List PageData) (totalPages : ℕ)
    (e : ℕ × Question) (nxt : Option (ℕ × Question)) : ℕ × Question :=
  let pageNum := e.1
  let q := e.2
  let img := getPageD pages pageNum
  let q1 :=
    if q.crossPageMerged then
      let cpep := q.crossPageEndPage.getD pageNum
      match q.crossPageEndY with
      | some y => { q with endY := some y, endPage := some cpep }
      | none =>
        let endImg := if cpep ≤ pages.length then getPageD pages cpep else img
        { q with endY := some (pct97 endImg.height), endPage := some cpep }
    else if q.crossPage then
      { q with endY := some (pct97 img.height), endPage := some pageNum }
    else
      match q.earlyEndY with
      | some ee =>
        if ee > q.startY then { q with endY := some ee, endPage := some pageNum }
        else { q with earlyEndY := none }
      | none => q
  if q1.earlyEndY.isNone && !q1.crossPage && !q1.crossPageMerged then
    match nxt with
    | some np =>
      if np.1 = pageNum then
        (pageNum,
          { q1 with
            endY := some (np.2.startY - margin30 np.2.textHeight)
            endPage := some pageNum
            nextQuestionY := some np.2.startY })
      else
        (pageNum,
          { q1 with
            endY := some (pct97 img.height)
            endPage := some pageNum
            potentialCrossPage := true })
    | none =>
      (pageNum,
        { q1 with endY := some (pct97 img.height), endPage := some totalPages })
  else (pageNum, q1)

/-- The end-resolution pass over the whole collected list, each entry seeing
its successor. -/
def finalizeEntries (pages : List PageData) (totalPages : ℕ) :
    List (ℕ × Question) → List (ℕ × Question)
  | [] => []
  | [e] => [finalizeStep pages totalPages e none]
  | e :: f :: rest =>
    finalizeStep pages totalPages e (some f) ::
      finalizeEntries pages totalPages (f :: rest)

/-- `LayoutAnalyzer.analyze_all_pages` on already recognized per-page lines:
per-page line merging (the tail of `analyze_page`), the cross-page-aware
extraction loop with pending-merge resolution, the trailing flush of an
unresolved pending record, the text-height refinement, and the
end-resolution pass. -/
def analyzeAllPages (rawPages : List PageData) : List Question :=
  let pages := rawPages.map
    (fun p => { p with lines := mergeSameLineTexts p.lines })
  let totalPages := pages.length
  let allPages : ℕ → Option (List OcrLine) := fun p =>
    if 1 ≤ p ∧ p ≤ totalPages then some (getPageD pages p).lines else none
  let st := phase2Go pages totalPages allPages (List.range' 1 totalPages) {}
  let collected := st.collected ++
    (match st.pending with
     | some qp =>
       [(qp.2,
         { qp.1 with
           imageHeight := some (getPageD pages qp.2).height
           imageWidth := some (getPageD pages qp.2).width })]
     | none => [])
  let refined := collected.map (fun e => (e.1, refineTextHeight pages e.1 e.2))
  (finalizeEntries pages totalPages refined).map (·.2)

/-- A default line for head/last access in statements about clusters. -/
def dfltLine : OcrLine := ⟨⟨(0, 0), (0, 0), (0, 0), (0, 0)⟩, [], 0⟩

/-- Height `y_max - y_min` of a recognized line. -/
def lineHeightOf (l : OcrLine) : ℚ := l.box.yMax - l.box.yMin

/-- Average line height of a page, as the spec describes the adaptive
threshold base. -/
def avgLineHeight (ls : List OcrLine) : ℚ :=
  (ls.map lineHeightOf).sum / (ls.length : ℚ)

/-- Length of the overlap of the vertical spans of two lines. -/
def overlapLen (a b : OcrLine) : ℚ :=
  min a.box.yMax b.box.yMax - max a.box.yMin b.box.yMin

/-- Modelled from the spec wording of the same-visual-line criterion (claim
C6): centers closer than about 0.8 times the page's average line height, or
vertical spans overlapping by more than 30% of the larger line's height. -/
def specSameVisualLine (avgH : ℚ) (a b : OcrLine) : Prop :=
  |a.box.yCenter - b.box.yCenter| < (8 / 10) * avgH ∨
  overlapLen a b > (3 / 10) * max (lineHeightOf a) (lineHeightOf b)

instance (avgH : ℚ) (a b : OcrLine) : Decidable (specSameVisualLine avgH a b) := by
  unfold specSameVisualLine
  infer_instance

/-- The `(end_y, end_page)` pair of a record, the fields committed by the
end-resolution pass. -/
def endFields (q : Question) : Option ℤ × Option ℕ := (q.endY, q.endPage)

/-- Identity fields of a record, the fields that designate which opened
question a record is. -/
def idFields (q : Question) : ℤ × ℕ × List Char × QType :=
  (q.startY, q.page, q.text, q.questionType)

/-- End resolution written as the spec states it, with rule (f) amended to
what the code computes: the last record overall takes 97% of its own page's
height (not the last page's height) while its `end_page` is the last page.
Rules (first applicable wins): (a) cross-page merged, (b) unresolved
cross-page, (c) valid early end, (d) next record on the same page, (e) next
record on a later page, (f) last record overall. -/
def specEndResolution (pages : List PageData) (totalPages : ℕ)
    (e : ℕ × Question) (nxt : Option (ℕ × Question)) : Option ℤ × Option ℕ :=
  let pageNum := e.1
  let q := e.2
  if q.crossPageMerged then
    let cpep := q.crossPageEndPage.getD pageNum
    match q.crossPageEndY with
    | some y => (some y, some cpep)
    | none =>
      (some (pct97 (if cpep ≤ pages.length then getPageD pages cpep
                    else getPageD pages pageNum).height),
       some cpep)
  else if q.crossPage then
    (some (pct97 (getPageD pages pageNum).height), some pageNum)
  else if (match q.earlyEndY with
           | some ee => decide (q.startY < ee)
           | none => false) then
    (q.earlyEndY, some pageNum)
  else
    match nxt with
    | some np =>
      if np.1 = pageNum then
        (some (np.2.startY - margin30 np.2.textHeight), some pageNum)
      else (some (pct97 (getPageD pages pageNum).height), some pageNum)
    | none => (some (pct97 (getPageD pages pageNum).height), some totalPages)

/-- Modelled from the spec: end resolution exactly as claim C3 states it,
with the original rule (f): the last record overall takes 97% of the LAST
page's height. -/
def specEndResolutionOrig (pages : List PageData) (totalPages : ℕ)
    (e : ℕ × Question) (nxt : Option (ℕ × Question)) : Option ℤ × Option ℕ :=
  let pageNum := e.1
  let q := e.2
  if q.crossPageMerged then
    let cpep := q.crossPageEndPage.getD pageNum
    match q.crossPageEndY with
    | some y => (some y, some cpep)
    | none =>
      (some (pct97 (if cpep ≤ pages.length then getPageD pages cpep
                    else getPageD pages pageNum).height),
       some cpep)
  else if q.crossPage then
    (some (pct97 (getPageD pages pageNum).height), some pageNum)
  else if (match q.earlyEndY with
           | some ee => decide (q.startY < ee)
           | none => false) then
    (q.earlyEndY, some pageNum)
  else
    match nxt with
    | some np =>
      if np.1 = pageNum then
        (some (np.2.startY - margin30 np.2.textHeight), some pageNum)
      else (some (pct97 (getPageD pages pageNum).height), some pageNum)
    | none => (some (pct97 (getPageD pages totalPages).height), some totalPages)

/-- All y coordinates of the bounding box of a line are non-negative
(pixel coordinates of a recognizer). -/
def ysNonneg (l : OcrLine) : Prop := ∀ v ∈ l.box.yList, (0 : ℚ) ≤ v

instance (l : OcrLine) : Decidable (ysNonneg l) := by
  unfold ysNonneg
  infer_instance

/-- An always-absent page map (`all_page_ocr_results` handed as `None`). -/
def noPagesFn : ℕ → Option (List OcrLine) := fun _ => none

/-- A rectangular test line of full test width at a given vertical span. -/
def mkTestLine (ya yb : ℚ) (t : List Char) : OcrLine :=
  ⟨⟨(0, ya), (100, ya), (100, yb), (0, yb)⟩, t, 1⟩

/-- Default question record for head access in closed statements. -/
def dfltQuestion : Question :=
  { startY := 0, text := [], page := 0, isChineseQuestionFlag := false
    questionType := QType.other, textHeight := 0 }

/-- Concrete fragment: span 0..100, vertical center 50. -/
def cexA : OcrLine := ⟨⟨(0, 0), (5, 0), (5, 100), (0, 100)⟩, ['a'], 1⟩

/-- Concrete fragment: span 15..115, vertical center 65; its span overlaps
85% of `cexA` and the average line height of the two is 100. -/
def cexB : OcrLine := ⟨⟨(0, 15), (5, 15), (5, 115), (0, 115)⟩, ['b'], 1⟩

/-- Concrete fragment on the right of the line (x 50..60). -/
def cexC : OcrLine := ⟨⟨(50, 0), (60, 0), (60, 10), (50, 10)⟩, ['x'], 1⟩

/-- Concrete fragment on the left of the line (x 0..10). -/
def cexD : OcrLine := ⟨⟨(0, 2), (10, 2), (10, 12), (0, 12)⟩, ['y'], 3⟩

/-- Concrete page lines: a minor heading followed by the nested items
`(1)` and `(1)` again. -/
def ocrC2 : List OcrLine :=
  [mkTestLine 0 10 ['1', '.', 'a'],
   mkTestLine 100 110 ['(', '1', ')'],
   mkTestLine 200 210 ['(', '1', ')']]

/-- Concrete major heading at `y = 10`. -/
def lineC4a : OcrLine := mkTestLine 10 20 ['一', '、']

/-- Concrete nested item `(1)`. -/
def lineC4b : OcrLine := mkTestLine 30 40 ['(', '1', ')']

/-- A second major heading whose `start_y` is also 10. -/
def lineC4c : OcrLine := mkTestLine 10 22 ['二', '、', 'b']

/-- A page carrying two major-heading lines with the same integer `y_min`
(10) whose vertical centers (11 and 25) keep them unmerged. -/
def pageC5 : PageData :=
  ⟨1000, 800,
   [⟨⟨(0, 10), (100, 10), (100, 12), (0, 12)⟩, ['一', '、'], 1⟩,
    ⟨⟨(0, 10), (100, 10), (100, 40), (0, 40)⟩, ['二', '、', 'b'], 1⟩]⟩

/-- A page of height 1000 whose only question opens at `y = 999`, inside
the bottom 3% band. -/
def pageC1 : PageData := ⟨1000, 800, [mkTestLine 999 1005 ['一', '、']]⟩

/-- A page of height 1000 with one question at `y = 10`. -/
def pageC1w : PageData := ⟨1000, 800, [mkTestLine 10 20 ['一', '、']]⟩

/-- First page (height 1000) of the two-page fixture. -/
def pageC3a : PageData := ⟨1000, 800, [mkTestLine 10 20 ['一', '、']]⟩

/-- Second page: taller (height 2000) and without any question line. -/
def pageC3b : PageData := ⟨2000, 800, []⟩

/-- A plain collected record on page 1 with no cross-page or early-end
marks, as the two-page fixture produces it. -/
def qC3 : Question :=
  { startY := 10, text := ['一', '、'], page := 1
    isChineseQuestionFlag := true, questionType := QType.chinese
    textHeight := 10 }

/-- An open minor-heading record at `start_y = 0`. -/
def q8 : Question :=
  { startY := 0, text := ['1', '.', 'a'], page := 1
    isChineseQuestionFlag := false, questionType := QType.sub
    textHeight := 10 }

/-- Extractor state with `q8` open. -/
def st8 : ExtState := { current := some q8 }

/-- A nested item `(1)` as the last line of its page. -/
def line8 : OcrLine := mkTestLine 100 110 ['(', '1', ')']

/-- Page map in which page 2 opens with the nested item `(2)`. -/
def allPages8 : ℕ → Option (List OcrLine) := fun n =>
  if n = 2 then some [mkTestLine 5 15 ['(', '2', ')']] else none

/-- A nested item `(3)` (out of sequence after `(1)`). -/
def line2w : OcrLine := mkTestLine 100 110 ['(', '3', ')']

/-- Extractor state mid-page: `q8` open, position 10 already seen, one
nested number accumulated. -/
def st4 : ExtState :=
  { seen := [10], current := some q8, isChineseQuestionState := true
    nested := [1] }


theorem mem_sortInsertKey {key : OcrLine → ℚ} {l x : OcrLine} :
    ∀ {ls : List OcrLine}, x ∈ sortInsertKey key l ls ↔ x = l ∨ x ∈ ls := by
  intro ls
  induction ls with
  | nil => simp [sortInsertKey]
  | cons y ys ih =>
    simp only [sortInsertKey]
    split
    · simp only [List.mem_cons, ih]
      tauto
    · simp

theorem mem_sortByKey {key : OcrLine → ℚ} {x : OcrLine} :
    ∀ {ls : List OcrLine}, x ∈ sortByKey key ls ↔ x ∈ ls := by
  intro ls
  induction ls with
  | nil => simp [sortByKey]
  | cons y ys ih =>
    simp only [sortByKey, mem_sortInsertKey, List.mem_cons, ih]

theorem sortInsertKey_perm (key : OcrLine → ℚ) (l : OcrLine) :
    ∀ ls : List OcrLine, (sortInsertKey key l ls).Perm (l :: ls) := by
  intro ls
  induction ls with
  | nil => simp [sortInsertKey]
  | cons y ys ih =>
    simp only [sortInsertKey]
    split
    · exact (ih.cons y).trans (List.Perm.swap l y ys)
    · exact List.Perm.refl _

theorem sortByKey_perm (key : OcrLine → ℚ) :
    ∀ ls : List OcrLine, (sortByKey key ls).Perm ls := by
  intro ls
  induction ls with
  | nil => simp [sortByKey]
  | cons y ys ih =>
    exact (sortInsertKey_perm key y (sortByKey key ys)).trans (ih.cons y)

theorem length_sortByKey (key : OcrLine → ℚ) (ls : List OcrLine) :
    (sortByKey key ls).length = ls.length :=
  (sortByKey_perm key ls).length_eq

theorem pairwise_sortInsertKey {key : OcrLine → ℚ} (l : OcrLine) :
    ∀ {ls : List OcrLine}, ls.Pairwise (fun a b => key a ≤ key b) →
      (sortInsertKey key l ls).Pairwise (fun a b => key a ≤ key b) := by
  intro ls h
  induction ls with
  | nil => simp [sortInsertKey]
  | cons y ys ih =>
    rw [List.pairwise_cons] at h
    simp only [sortInsertKey]
    split
    · rename_i hlt
      refine List.pairwise_cons.2 ⟨?_, ih h.2⟩
      intro b hb
      rcases mem_sortInsertKey.1 hb with hb | hb
      · exact hb ▸ le_of_lt hlt
      · exact h.1 b hb
    · rename_i hge
      refine List.pairwise_cons.2 ⟨?_, List.pairwise_cons.2 h⟩
      intro b hb
      rcases List.mem_cons.1 hb with hb | hb
      · exact hb ▸ le_of_not_lt hge
      · exact le_trans (le_of_not_lt hge) (h.1 b hb)

theorem pairwise_sortByKey (key : OcrLine → ℚ) :
    ∀ ls : List OcrLine,
      (sortByKey key ls).Pairwise (fun a b => key a ≤ key b) := by
  intro ls
  induction ls with
  | nil => simp [sortByKey]
  | cons y ys ih => exact pairwise_sortInsertKey y ih

theorem foldl_min_le_init (x : ℚ) :
    ∀ xs : List ℚ, xs.foldl min x ≤ x := by
  intro xs
  induction xs generalizing x with
  | nil => simp
  | cons y ys ih =>
    simpa using le_trans (ih (min x y)) (min_le_left x y)

theorem foldl_min_le_mem (x v : ℚ) :
    ∀ xs : List ℚ, v ∈ xs → xs.foldl min x ≤ v := by
  intro xs
  induction xs generalizing x with
  | nil => simp
  | cons y ys ih =>
    intro hv
    rcases List.mem_cons.1 hv with hv | hv
    · subst hv
      simpa using le_trans (foldl_min_le_init _ ys) (min_le_right x v)
    · exact ih (min x y) hv

theorem foldl_min_mem (x : ℚ) :
    ∀ xs : List ℚ, xs.foldl min x ∈ x :: xs := by
  intro xs
  induction xs generalizing x with
  | nil => simp
  | cons y ys ih =>
    have h := ih (min x y)
    simp only [List.foldl_cons]
    rcases List.mem_cons.1 h with h | h
    · rcases min_choice x y with he | he
      · rw [h, he]
        simp
      · rw [h, he]
        simp
    · simp [h]

theorem foldl_max_init_le (x : ℚ) :
    ∀ xs : List ℚ, x ≤ xs.foldl max x := by
  intro xs
  induction xs generalizing x with
  | nil => simp
  | cons y ys ih =>
    simpa using le_trans (le_max_left x y) (ih (max x y))

theorem mem_le_foldl_max (x v : ℚ) :
    ∀ xs : List ℚ, v ∈ xs → v ≤ xs.foldl max x := by
  intro xs
  induction xs generalizing x with
  | nil => simp
  | cons y ys ih =>
    intro hv
    rcases List.mem_cons.1 hv with hv | hv
    · subst hv
      simpa using le_trans (le_max_right x v) (foldl_max_init_le _ ys)
    · exact ih (max x y) hv

theorem foldl_max_mem (x : ℚ) :
    ∀ xs : List ℚ, xs.foldl max x ∈ x :: xs := by
  intro xs
  induction xs generalizing x with
  | nil => simp
  | cons y ys ih =>
    have h := ih (max x y)
    simp only [List.foldl_cons]
    rcases List.mem_cons.1 h with h | h
    · rcases max_choice x y with he | he
      · rw [h, he]
        simp
      · rw [h, he]
        simp
    · simp [h]

theorem listMin1_mem : ∀ {l : List ℚ}, l ≠ [] → listMin1 l ∈ l := by
  intro l h
  cases l with
  | nil => exact absurd rfl h
  | cons x xs => exact foldl_min_mem x xs

theorem listMin1_le {l : List ℚ} {v : ℚ} (hv : v ∈ l) : listMin1 l ≤ v := by
  cases l with
  | nil => cases hv
  | cons x xs =>
    rcases List.mem_cons.1 hv with h | h
    · exact h ▸ foldl_min_le_init x xs
    · exact foldl_min_le_mem x v xs h

theorem listMax1_mem : ∀ {l : List ℚ}, l ≠ [] → listMax1 l ∈ l := by
  intro l h
  cases l with
  | nil => exact absurd rfl h
  | cons x xs => exact foldl_max_mem x xs

theorem le_listMax1 {l : List ℚ} {v : ℚ} (hv : v ∈ l) : v ≤ listMax1 l := by
  cases l with
  | nil => cases hv
  | cons x xs =>
    rcases List.mem_cons.1 hv with h | h
    · exact h ▸ foldl_max_init_le x xs
    · exact mem_le_foldl_max x v xs h

theorem quad_yMin_mem (b : Quad) : b.yMin ∈ b.yList := by
  simp only [Quad.yMin, Quad.yList, List.mem_cons, List.not_mem_nil, or_false]
  rcases min_choice b.p1.2 (min b.p2.2 (min b.p3.2 b.p4.2)) with h | h <;> rw [h]
  · exact Or.inl rfl
  · rcases min_choice b.p2.2 (min b.p3.2 b.p4.2) with h2 | h2 <;> rw [h2]
    · exact Or.inr (Or.inl rfl)
    · rcases min_choice b.p3.2 b.p4.2 with h3 | h3 <;> rw [h3]
      · exact Or.inr (Or.inr (Or.inl rfl))
      · exact Or.inr (Or.inr (Or.inr rfl))

theorem quad_yMin_le (b : Quad) {v : ℚ} (hv : v ∈ b.yList) : b.yMin ≤ v := by
  simp only [Quad.yList, List.mem_cons, List.not_mem_nil, or_false] at hv
  rcases hv with h | h | h | h <;> subst h <;> simp only [Quad.yMin]
  · exact min_le_left _ _
  · exact le_trans (min_le_right _ _) (min_le_left _ _)
  · exact le_trans (min_le_right _ _) (le_trans (min_le_right _ _) (min_le_left _ _))
  · exact le_trans (min_le_right _ _) (le_trans (min_le_right _ _) (min_le_right _ _))

theorem quad_yMax_mem (b : Quad) : b.yMax ∈ b.yList := by
  simp only [Quad.yMax, Quad.yList, List.mem_cons, List.not_mem_nil, or_false]
  rcases max_choice b.p1.2 (max b.p2.2 (max b.p3.2 b.p4.2)) with h | h <;> rw [h]
  · exact Or.inl rfl
  · rcases max_choice b.p2.2 (max b.p3.2 b.p4.2) with h2 | h2 <;> rw [h2]
    · exact Or.inr (Or.inl rfl)
    · rcases max_choice b.p3.2 b.p4.2 with h3 | h3 <;> rw [h3]
      · exact Or.inr (Or.inr (Or.inl rfl))
      · exact Or.inr (Or.inr (Or.inr rfl))

theorem quad_le_yMax (b : Quad) {v : ℚ} (hv : v ∈ b.yList) : v ≤ b.yMax := by
  simp only [Quad.yList, List.mem_cons, List.not_mem_nil, or_false] at hv
  rcases hv with h | h | h | h <;> subst h <;> simp only [Quad.yMax]
  · exact le_max_left _ _
  · exact le_trans (le_max_left _ _) (le_max_right _ _)
  · exact le_trans (le_trans (le_max_left _ _) (le_max_right _ _)) (le_max_right _ _)
  · exact le_trans (le_trans (le_max_right _ _) (le_max_right _ _)) (le_max_right _ _)

theorem chunkGrow_append (x : OcrLine) :
    ∀ rest : List OcrLine, (chunkGrow x rest).1 ++ (chunkGrow x rest).2 = rest := by
  intro rest
  induction rest generalizing x with
  | nil => simp [chunkGrow]
  | cons l ls ih =>
    simp only [chunkGrow]
    split
    · simpa using ih l
    · simp

theorem chainChunks_nil : chainChunks [] = [] := by
  simp [chainChunks]

theorem chainChunks_cons (l : OcrLine) (rest : List OcrLine) :
    chainChunks (l :: rest) =
      (l :: (chunkGrow l rest).1) :: chainChunks (chunkGrow l rest).2 := by
  simp [chainChunks]

theorem chainChunks_flatten_aux :
    ∀ (n : ℕ) (ls : List OcrLine), ls.length ≤ n →
      (chainChunks ls).flatten = ls := by
  intro n
  induction n with
  | zero =>
    intro ls h
    rw [List.length_eq_zero.1 (Nat.le_zero.1 h)]
    simp [chainChunks_nil]
  | succ n ih =>
    intro ls h
    cases ls with
    | nil => simp [chainChunks_nil]
    | cons l rest =>
      rw [chainChunks_cons]
      simp only [List.flatten_cons]
      rw [ih (chunkGrow l rest).2
        (le_trans (chunkGrow_snd_length l rest) (Nat.le_of_succ_le_succ h))]
      simp [chunkGrow_append]

theorem chainChunks_flatten (ls : List OcrLine) :
    (chainChunks ls).flatten = ls :=
  chainChunks_flatten_aux ls.length ls (le_refl _)

theorem chainChunks_mem_of_mem {ls c : List OcrLine} {x : OcrLine}
    (hc : c ∈ chainChunks ls) (hx : x ∈ c) : x ∈ ls := by
  rw [← chainChunks_flatten ls]
  exact List.mem_flatten.2 ⟨c, hc, hx⟩

theorem chainChunks_ne_nil_aux :
    ∀ (n : ℕ) (ls : List OcrLine), ls.length ≤ n →
      ∀ c ∈ chainChunks ls, c ≠ [] := by
  intro n
  induction n with
  | zero =>
    intro ls h
    rw [List.length_eq_zero.1 (Nat.le_zero.1 h)]
    simp [chainChunks_nil]
  | succ n ih =>
    intro ls h c hc
    cases ls with
    | nil =>
      rw [chainChunks_nil] at hc
      cases hc
    | cons l rest =>
      rw [chainChunks_cons] at hc
      rcases List.mem_cons.1 hc with hc | hc
      · subst hc
        exact List.cons_ne_nil _ _
      · exact ih (chunkGrow l rest).2
          (le_trans (chunkGrow_snd_length l rest) (Nat.le_of_succ_le_succ h)) c hc

theorem chainChunks_ne_nil {ls : List OcrLine} :
    ∀ c ∈ chainChunks ls, c ≠ [] :=
  chainChunks_ne_nil_aux ls.length ls (le_refl _)

theorem chunkGrow_chain (x : OcrLine) :
    ∀ rest : List OcrLine,
      List.Chain (fun a b => sameLineClose b a = true) x (chunkGrow x rest).1 := by
  intro rest
  induction rest generalizing x with
  | nil => simp [chunkGrow]
  | cons l ls ih =>
    simp only [chunkGrow]
    split
    · rename_i hcl
      exact List.Chain.cons hcl (ih l)
    · simp

theorem chunkGrow_break (x : OcrLine) :
    ∀ (rest : List OcrLine) (y : OcrLine) (ys : List OcrLine),
      (chunkGrow x rest).2 = y :: ys →
      sameLineClose y ((chunkGrow x rest).1.getLastD x) = false := by
  intro rest
  induction rest generalizing x with
  | nil =>
    intro y ys h
    simp [chunkGrow] at h
  | cons l ls ih =>
    intro y ys h
    simp only [chunkGrow] at h ⊢
    split at h
    · rename_i hcl
      simp only [hcl, if_true, List.getLastD_cons]
      exact ih l y ys h
    · rename_i hcl
      simp only [hcl, if_false]
      have h2 : l :: ls = y :: ys := h
      injection h2 with h1 _
      subst h1
      simpa using hcl

theorem chainChunks_chain_aux :
    ∀ (n : ℕ) (ls : List OcrLine), ls.length ≤ n →
      ∀ c ∈ chainChunks ls, List.Chain' (fun a b => sameLineClose b a = true) c := by
  intro n
  induction n with
  | zero =>
    intro ls h
    rw [List.length_eq_zero.1 (Nat.le_zero.1 h)]
    simp [chainChunks_nil]
  | succ n ih =>
    intro ls h c hc
    cases ls with
    | nil =>
      rw [chainChunks_nil] at hc
      cases hc
    | cons l rest =>
      rw [chainChunks_cons] at hc
      rcases List.mem_cons.1 hc with hc | hc
      · subst hc
        exact chunkGrow_chain l rest
      · exact ih (chunkGrow l rest).2
          (le_trans (chunkGrow_snd_length l rest) (Nat.le_of_succ_le_succ h)) c hc

theorem chainChunks_breaks_aux :
    ∀ (n : ℕ) (ls : List OcrLine), ls.length ≤ n →
      List.Chain'
        (fun c1 c2 => sameLineClose (c2.headD dfltLine) (c1.getLastD dfltLine) = false)
        (chainChunks ls) := by
  intro n
  induction n with
  | zero =>
    intro ls h
    rw [List.length_eq_zero.1 (Nat.le_zero.1 h)]
    simp [chainChunks_nil]
  | succ n ih =>
    intro ls h
    cases ls with
    | nil => simp [chainChunks_nil]
    | cons l rest =>
      rw [chainChunks_cons]
      refine List.chain'_cons'.2 ⟨?_, ?_⟩
      · intro c2 hc2
        cases hg2 : (chunkGrow l rest).2 with
        | nil =>
          rw [hg2, chainChunks_nil] at hc2
          cases hc2
        | cons y ys =>
          rw [hg2, chainChunks_cons] at hc2
          simp only [List.head?_cons, Option.mem_def, Option.some.injEq] at hc2
          subst hc2
          simp only [List.headD_cons, List.getLastD_cons]
          exact chunkGrow_break l rest y ys hg2
      · exact ih (chunkGrow l rest).2
          (le_trans (chunkGrow_snd_length l rest) (Nat.le_of_succ_le_succ h))

theorem chainChunks_breaks (ls : List OcrLine) :
    List.Chain'
      (fun c1 c2 => sameLineClose (c2.headD dfltLine) (c1.getLastD dfltLine) = false)
      (chainChunks ls) :=
  chainChunks_breaks_aux ls.length ls (le_refl _)

theorem mergeLoop_eq :
    ∀ (rest : List OcrLine) (c : OcrLine) (cs acc : List OcrLine),
      mergeLoop rest (c :: cs) acc =
        acc ++ (((c :: cs).reverse ++ (chunkGrow c rest).1) ::
          chainChunks (chunkGrow c rest).2).map mergeLineTexts := by
  intro rest
  induction rest with
  | nil =>
    intro c cs acc
    simp [mergeLoop, chunkGrow, chainChunks_nil]
  | cons l ls ih =>
    intro c cs acc
    simp only [mergeLoop, chunkGrow]
    split
    · rw [ih l (c :: cs) acc]
      simp [List.append_assoc]
    · rw [ih l [] (acc ++ [mergeLineTexts (c :: cs).reverse])]
      rw [chainChunks_cons]
      simp [List.append_assoc]

/-- The clustering loop computes exactly the chain decomposition of the
sorted fragment list, cluster by cluster. -/
theorem mergeSameLineTexts_eq (ocr : List OcrLine) :
    mergeSameLineTexts ocr =
      (chainChunks (sortByYMin ocr)).map mergeLineTexts := by
  unfold mergeSameLineTexts
  cases hs : sortByYMin ocr with
  | nil => simp [chainChunks_nil]
  | cons l rest =>
    simp only []
    rw [mergeLoop_eq rest l [] []]
    rw [chainChunks_cons]
    simp

theorem quad_xMin_mem (b : Quad) : b.xMin ∈ b.xList := by
  simp only [Quad.xMin, Quad.xList, List.mem_cons, List.not_mem_nil, or_false]
  rcases min_choice b.p1.1 (min b.p2.1 (min b.p3.1 b.p4.1)) with h | h <;> rw [h]
  · exact Or.inl rfl
  · rcases min_choice b.p2.1 (min b.p3.1 b.p4.1) with h2 | h2 <;> rw [h2]
    · exact Or.inr (Or.inl rfl)
    · rcases min_choice b.p3.1 b.p4.1 with h3 | h3 <;> rw [h3]
      · exact Or.inr (Or.inr (Or.inl rfl))
      · exact Or.inr (Or.inr (Or.inr rfl))

theorem quad_xMin_le (b : Quad) {v : ℚ} (hv : v ∈ b.xList) : b.xMin ≤ v := by
  simp only [Quad.xList, List.mem_cons, List.not_mem_nil, or_false] at hv
  rcases hv with h | h | h | h <;> subst h <;> simp only [Quad.xMin]
  · exact min_le_left _ _
  · exact le_trans (min_le_right _ _) (min_le_left _ _)
  · exact le_trans (min_le_right _ _) (le_trans (min_le_right _ _) (min_le_left _ _))
  · exact le_trans (min_le_right _ _) (le_trans (min_le_right _ _) (min_le_right _ _))

theorem quad_xMax_mem (b : Quad) : b.xMax ∈ b.xList := by
  simp only [Quad.xMax, Quad.xList, List.mem_cons, List.not_mem_nil, or_false]
  rcases max_choice b.p1.1 (max b.p2.1 (max b.p3.1 b.p4.1)) with h | h <;> rw [h]
  · exact Or.inl rfl
  · rcases max_choice b.p2.1 (max b.p3.1 b.p4.1) with h2 | h2 <;> rw [h2]
    · exact Or.inr (Or.inl rfl)
    · rcases max_choice b.p3.1 b.p4.1 with h3 | h3 <;> rw [h3]
      · exact Or.inr (Or.inr (Or.inl rfl))
      · exact Or.inr (Or.inr (Or.inr rfl))

theorem quad_le_xMax (b : Quad) {v : ℚ} (hv : v ∈ b.xList) : v ≤ b.xMax := by
  simp only [Quad.xList, List.mem_cons, List.not_mem_nil, or_false] at hv
  rcases hv with h | h | h | h <;> subst h <;> simp only [Quad.xMax]
  · exact le_max_left _ _
  · exact le_trans (le_max_left _ _) (le_max_right _ _)
  · exact le_trans (le_trans (le_max_left _ _) (le_max_right _ _)) (le_max_right _ _)
  · exact le_trans (le_trans (le_max_right _ _) (le_max_right _ _)) (le_max_right _ _)

theorem mem_clusterYs {v : ℚ} {ls : List OcrLine} :
    v ∈ clusterYs ls ↔ ∃ li ∈ ls, v ∈ li.box.yList := by
  simp only [clusterYs, List.mem_flatten, List.mem_map]
  constructor
  · rintro ⟨ylist, ⟨li, hli, rfl⟩, hv⟩
    exact ⟨li, hli, hv⟩
  · rintro ⟨li, hli, hv⟩
    exact ⟨li.box.yList, ⟨li, hli, rfl⟩, hv⟩

theorem mem_clusterXs {v : ℚ} {ls : List OcrLine} :
    v ∈ clusterXs ls ↔ ∃ li ∈ ls, v ∈ li.box.xList := by
  simp only [clusterXs, List.mem_flatten, List.mem_map]
  constructor
  · rintro ⟨xlist, ⟨li, hli, rfl⟩, hv⟩
    exact ⟨li, hli, hv⟩
  · rintro ⟨li, hli, hv⟩
    exact ⟨li.box.xList, ⟨li, hli, rfl⟩, hv⟩

theorem clusterYs_sort_iff {v : ℚ} {c : List OcrLine} :
    v ∈ clusterYs (sortByXMin c) ↔ v ∈ clusterYs c := by
  simp only [mem_clusterYs, sortByXMin, mem_sortByKey]

theorem clusterXs_sort_iff {v : ℚ} {c : List OcrLine} :
    v ∈ clusterXs (sortByXMin c) ↔ v ∈ clusterXs c := by
  simp only [mem_clusterXs, sortByXMin, mem_sortByKey]

theorem clusterYs_ne_nil {c : List OcrLine} (h : c ≠ []) : clusterYs c ≠ [] := by
  cases c with
  | nil => exact absurd rfl h
  | cons l ls =>
    intro he
    have : l.box.p1.2 ∈ clusterYs (l :: ls) :=
      mem_clusterYs.2 ⟨l, List.mem_cons_self l ls, by simp [Quad.yList]⟩
    rw [he] at this
    cases this

theorem clusterXs_ne_nil {c : List OcrLine} (h : c ≠ []) : clusterXs c ≠ [] := by
  cases c with
  | nil => exact absurd rfl h
  | cons l ls =>
    intro he
    have : l.box.p1.1 ∈ clusterXs (l :: ls) :=
      mem_clusterXs.2 ⟨l, List.mem_cons_self l ls, by simp [Quad.xList]⟩
    rw [he] at this
    cases this

theorem sortByXMin_ne_nil {c : List OcrLine} (h : c ≠ []) :
    sortByXMin c ≠ [] := by
  intro he
  have := length_sortByKey (fun l => l.box.xMin) c
  rw [show sortByKey (fun l => l.box.xMin) c = sortByXMin c from rfl, he] at this
  exact h (List.length_eq_zero.1 this.symm)

theorem listMin1_le_listMax1 {l : List ℚ} (h : l ≠ []) :
    listMin1 l ≤ listMax1 l :=
  le_listMax1 (listMin1_mem h)

theorem mergeLineTexts_singleton (l : OcrLine) : mergeLineTexts [l] = l := rfl

theorem mergeLineTexts_multi (l l2 : OcrLine) (ls : List OcrLine) :
    mergeLineTexts (l :: l2 :: ls) =
      ⟨⟨(listMin1 (clusterXs (sortByXMin (l :: l2 :: ls))),
         listMin1 (clusterYs (sortByXMin (l :: l2 :: ls)))),
        (listMax1 (clusterXs (sortByXMin (l :: l2 :: ls))),
         listMin1 (clusterYs (sortByXMin (l :: l2 :: ls)))),
        (listMax1 (clusterXs (sortByXMin (l :: l2 :: ls))),
         listMax1 (clusterYs (sortByXMin (l :: l2 :: ls)))),
        (listMin1 (clusterXs (sortByXMin (l :: l2 :: ls))),
         listMax1 (clusterYs (sortByXMin (l :: l2 :: ls))))⟩,
       joinTexts (sortByXMin (l :: l2 :: ls)),
       confSum (sortByXMin (l :: l2 :: ls)) /
         ((sortByXMin (l :: l2 :: ls)).length : ℚ)⟩ := rfl

theorem mergeLineTexts_text {c : List OcrLine} (h : c ≠ []) :
    (mergeLineTexts c).text = joinTexts (sortByXMin c) := by
  match c with
  | [l] => simp [mergeLineTexts_singleton, joinTexts, sortByXMin, sortByKey, sortInsertKey]
  | l :: l2 :: ls => rw [mergeLineTexts_multi]

theorem mergeLineTexts_conf {c : List OcrLine} (h : c ≠ []) :
    (mergeLineTexts c).conf = confSum (sortByXMin c) / (c.length : ℚ) := by
  match c with
  | [l] =>
    simp [mergeLineTexts_singleton, confSum, sortByXMin, sortByKey, sortInsertKey]
  | l :: l2 :: ls =>
    rw [mergeLineTexts_multi]
    have := length_sortByKey (fun li => li.box.xMin) (l :: l2 :: ls)
    rw [show sortByKey (fun li => li.box.xMin) = sortByXMin from rfl] at this
    rw [this]

theorem mergeLineTexts_yMin {c : List OcrLine} (h : c ≠ []) :
    (mergeLineTexts c).box.yMin ∈ clusterYs c ∧
      ∀ v ∈ clusterYs c, (mergeLineTexts c).box.yMin ≤ v := by
  match c with
  | [l] =>
    rw [mergeLineTexts_singleton]
    constructor
    · exact mem_clusterYs.2 ⟨l, List.mem_cons_self l [], quad_yMin_mem l.box⟩
    · intro v hv
      rcases mem_clusterYs.1 hv with ⟨li, hli, hvl⟩
      rcases List.mem_singleton.1 hli with rfl
      exact quad_yMin_le li.box hvl
  | l :: l2 :: ls =>
    have hs : sortByXMin (l :: l2 :: ls) ≠ [] := sortByXMin_ne_nil (by simp)
    have hys : clusterYs (sortByXMin (l :: l2 :: ls)) ≠ [] := clusterYs_ne_nil hs
    have hle : listMin1 (clusterYs (sortByXMin (l :: l2 :: ls))) ≤
        listMax1 (clusterYs (sortByXMin (l :: l2 :: ls))) := listMin1_le_listMax1 hys
    rw [mergeLineTexts_multi]
    have hbox : (⟨(listMin1 (clusterXs (sortByXMin (l :: l2 :: ls))),
         listMin1 (clusterYs (sortByXMin (l :: l2 :: ls)))),
        (listMax1 (clusterXs (sortByXMin (l :: l2 :: ls))),
         listMin1 (clusterYs (sortByXMin (l :: l2 :: ls)))),
        (listMax1 (clusterXs (sortByXMin (l :: l2 :: ls))),
         listMax1 (clusterYs (sortByXMin (l :: l2 :: ls)))),
        (listMin1 (clusterXs (sortByXMin (l :: l2 :: ls))),
         listMax1 (clusterYs (sortByXMin (l :: l2 :: ls))))⟩ : Quad).yMin =
        listMin1 (clusterYs (sortByXMin (l :: l2 :: ls))) := by
      simp only [Quad.yMin]
      rw [min_self, min_eq_left hle, min_self]
    rw [hbox]
    constructor
    · exact clusterYs_sort_iff.1 (listMin1_mem hys)
    · intro v hv
      exact listMin1_le (clusterYs_sort_iff.2 hv)

theorem mergeLineTexts_yMax {c : List OcrLine} (h : c ≠ []) :
    (mergeLineTexts c).box.yMax ∈ clusterYs c ∧
      ∀ v ∈ clusterYs c, v ≤ (mergeLineTexts c).box.yMax := by
  match c with
  | [l] =>
    rw [mergeLineTexts_singleton]
    constructor
    · exact mem_clusterYs.2 ⟨l, List.mem_cons_self l [], quad_yMax_mem l.box⟩
    · intro v hv
      rcases mem_clusterYs.1 hv with ⟨li, hli, hvl⟩
      rcases List.mem_singleton.1 hli with rfl
      exact quad_le_yMax li.box hvl
  | l :: l2 :: ls =>
    have hs : sortByXMin (l :: l2 :: ls) ≠ [] := sortByXMin_ne_nil (by simp)
    have hys : clusterYs (sortByXMin (l :: l2 :: ls)) ≠ [] := clusterYs_ne_nil hs
    have hle : listMin1 (clusterYs (sortByXMin (l :: l2 :: ls))) ≤
        listMax1 (clusterYs (sortByXMin (l :: l2 :: ls))) := listMin1_le_listMax1 hys
    rw [mergeLineTexts_multi]
    have hbox : (⟨(listMin1 (clusterXs (sortByXMin (l :: l2 :: ls))),
         listMin1 (clusterYs (sortByXMin (l :: l2 :: ls)))),
        (listMax1 (clusterXs (sortByXMin (l :: l2 :: ls))),
         listMin1 (clusterYs (sortByXMin (l :: l2 :: ls)))),
        (listMax1 (clusterXs (sortByXMin (l :: l2 :: ls))),
         listMax1 (clusterYs (sortByXMin (l :: l2 :: ls)))),
        (listMin1 (clusterXs (sortByXMin (l :: l2 :: ls))),
         listMax1 (clusterYs (sortByXMin (l :: l2 :: ls))))⟩ : Quad).yMax =
        listMax1 (clusterYs (sortByXMin (l :: l2 :: ls))) := by
      simp only [Quad.yMax]
      rw [max_self, max_eq_right hle, max_eq_right hle]
    rw [hbox]
    constructor
    · exact clusterYs_sort_iff.1 (listMax1_mem hys)
    · intro v hv
      exact le_listMax1 (clusterYs_sort_iff.2 hv)

theorem mergeLineTexts_xMin {c : List OcrLine} (h : c ≠ []) :
    (mergeLineTexts c).box.xMin ∈ clusterXs c ∧
      ∀ v ∈ clusterXs c, (mergeLineTexts c).box.xMin ≤ v := by
  match c with
  | [l] =>
    rw [mergeLineTexts_singleton]
    constructor
    · exact mem_clusterXs.2 ⟨l, List.mem_cons_self l [], quad_xMin_mem l.box⟩
    · intro v hv
      rcases mem_clusterXs.1 hv with ⟨li, hli, hvl⟩
      rcases List.mem_singleton.1 hli with rfl
      exact quad_xMin_le li.box hvl
  | l :: l2 :: ls =>
    have hs : sortByXMin (l :: l2 :: ls) ≠ [] := sortByXMin_ne_nil (by simp)
    have hxs : clusterXs (sortByXMin (l :: l2 :: ls)) ≠ [] := clusterXs_ne_nil hs
    have hle : listMin1 (clusterXs (sortByXMin (l :: l2 :: ls))) ≤
        listMax1 (clusterXs (sortByXMin (l :: l2 :: ls))) := listMin1_le_listMax1 hxs
    rw [mergeLineTexts_multi]
    have hbox : (⟨(listMin1 (clusterXs (sortByXMin (l :: l2 :: ls))),
         listMin1 (clusterYs (sortByXMin (l :: l2 :: ls)))),
        (listMax1 (clusterXs (sortByXMin (l :: l2 :: ls))),
         listMin1 (clusterYs (sortByXMin (l :: l2 :: ls)))),
        (listMax1 (clusterXs (sortByXMin (l :: l2 :: ls))),
         listMax1 (clusterYs (sortByXMin (l :: l2 :: ls)))),
        (listMin1 (clusterXs (sortByXMin (l :: l2 :: ls))),
         listMax1 (clusterYs (sortByXMin (l :: l2 :: ls))))⟩ : Quad).xMin =
        listMin1 (clusterXs (sortByXMin (l :: l2 :: ls))) := by
      simp only [Quad.xMin]
      rw [min_eq_right hle, min_eq_right hle, min_self]
    rw [hbox]
    constructor
    · exact clusterXs_sort_iff.1 (listMin1_mem hxs)
    · intro v hv
      exact listMin1_le (clusterXs_sort_iff.2 hv)

theorem mergeLineTexts_xMax {c : List OcrLine} (h : c ≠ []) :
    (mergeLineTexts c).box.xMax ∈ clusterXs c ∧
      ∀ v ∈ clusterXs c, v ≤ (mergeLineTexts c).box.xMax := by
  match c with
  | [l] =>
    rw [mergeLineTexts_singleton]
    constructor
    · exact mem_clusterXs.2 ⟨l, List.mem_cons_self l [], quad_xMax_mem l.box⟩
    · intro v hv
      rcases mem_clusterXs.1 hv with ⟨li, hli, hvl⟩
      rcases List.mem_singleton.1 hli with rfl
      exact quad_le_xMax li.box hvl
  | l :: l2 :: ls =>
    have hs : sortByXMin (l :: l2 :: ls) ≠ [] := sortByXMin_ne_nil (by simp)
    have hxs : clusterXs (sortByXMin (l :: l2 :: ls)) ≠ [] := clusterXs_ne_nil hs
    have hle : listMin1 (clusterXs (sortByXMin (l :: l2 :: ls))) ≤
        listMax1 (clusterXs (sortByXMin (l :: l2 :: ls))) := listMin1_le_listMax1 hxs
    rw [mergeLineTexts_multi]
    have hbox : (⟨(listMin1 (clusterXs (sortByXMin (l :: l2 :: ls))),
         listMin1 (clusterYs (sortByXMin (l :: l2 :: ls)))),
        (listMax1 (clusterXs (sortByXMin (l :: l2 :: ls))),
         listMin1 (clusterYs (sortByXMin (l :: l2 :: ls)))),
        (listMax1 (clusterXs (sortByXMin (l :: l2 :: ls))),
         listMax1 (clusterYs (sortByXMin (l :: l2 :: ls)))),
        (listMin1 (clusterXs (sortByXMin (l :: l2 :: ls))),
         listMax1 (clusterYs (sortByXMin (l :: l2 :: ls))))⟩ : Quad).xMax =
        listMax1 (clusterXs (sortByXMin (l :: l2 :: ls))) := by
      simp only [Quad.xMax]
      rw [max_eq_left hle, max_self, max_eq_right hle]
    rw [hbox]
    constructor
    · exact clusterXs_sort_iff.1 (listMax1_mem hxs)
    · intro v hv
      exact le_listMax1 (clusterXs_sort_iff.2 hv)

theorem mergeSameLineTexts_sorted (ocr : List OcrLine) :
    (mergeSameLineTexts ocr).Pairwise
      (fun a b => a.box.yMin ≤ b.box.yMin) := by
  rw [mergeSameLineTexts_eq]
  rw [List.pairwise_map]
  have hpw : (sortByYMin ocr).Pairwise
      (fun a b => a.box.yMin ≤ b.box.yMin) :=
    pairwise_sortByKey (fun l => l.box.yMin) ocr
  have hflat :
      (chainChunks (sortByYMin ocr)).flatten = sortByYMin ocr :=
    chainChunks_flatten _
  have hcross := (List.pairwise_flatten.1 (hflat ▸ hpw)).2
  refine hcross.imp_of_mem ?_
  intro c1 c2 hc1 hc2 hrel
  have hn1 : c1 ≠ [] := chainChunks_ne_nil c1 hc1
  have hn2 : c2 ≠ [] := chainChunks_ne_nil c2 hc2
  obtain ⟨a, ha⟩ := List.exists_mem_of_ne_nil c1 hn1
  have hm2 := (mergeLineTexts_yMin hn2).1
  rcases mem_clusterYs.1 hm2 with ⟨b, hb, hm2y⟩
  have h1 : (mergeLineTexts c1).box.yMin ≤ a.box.yMin :=
    (mergeLineTexts_yMin hn1).2 _
      (mem_clusterYs.2 ⟨a, ha, quad_yMin_mem a.box⟩)
  have h2 : a.box.yMin ≤ b.box.yMin := hrel a ha b hb
  have h3 : b.box.yMin ≤ (mergeLineTexts c2).box.yMin :=
    quad_yMin_le b.box hm2y
  exact le_trans h1 (le_trans h2 h3)

theorem processLine_chinese_dup
    (st : ExtState) (l : OcrLine) (rest : List OcrLine) (pageNum : ℕ)
    (allPages : ℕ → Option (List OcrLine)) (totalPages : ℕ)
    (h1 : isChineseNumberQuestion l.text = true)
    (h2 : pyInt l.box.yMin ∈ st.seen) :
    processLine l rest pageNum allPages totalPages st =
      { st with questions := st.questions ++ st.current.toList, nested := [] } := by
  unfold processLine
  rw [h1]
  simp only [if_true]
  unfold handleChinese
  rw [if_pos h2]


/-- Claim C6, counterexample: the merger does not implement the claimed
criterion.  The fragments `cexA` and `cexB` satisfy both claimed conditions
(centers 15 apart, below 0.8 times the average line height 100; spans
overlapping 85, more than 30% of the larger height 100), yet the code keeps
them in two separate visual lines because their center distance 15 exceeds
the fixed 10.0 threshold: the claimed equivalence is false at this input. -/
theorem C6_counterexample :
    specSameVisualLine (avgLineHeight [cexA, cexB]) cexA cexB ∧
    (mergeSameLineTexts [cexA, cexB]).length = 2 ∧
    ¬(((mergeSameLineTexts [cexA, cexB]).length = 1) ↔
      specSameVisualLine (avgLineHeight [cexA, cexB]) cexA cexB) := by
  refine ⟨?_, ?_, ?_⟩
  · with_unfolding_all decide
  · with_unfolding_all decide
  · with_unfolding_all decide

/-- Claim C6 (amended): two recognized fragments are assigned to the same
visual line by a greedy scan of the `y_min`-sorted fragments in which a
fragment joins the current cluster exactly when the absolute difference of
its vertical center and the previous fragment's vertical center is at most
the fixed threshold 10.0; there is no adaptive threshold derived from the
average line height and no span-overlap criterion.  The merger output is
exactly the per-cluster merge of this chain decomposition, inside every
cluster consecutive fragments are within the fixed threshold, and at every
cluster boundary the adjacent fragments exceed it. -/
theorem C6_amended_fixed_threshold (ocr : List OcrLine) :
    mergeSameLineTexts ocr =
      (chainChunks (sortByYMin ocr)).map mergeLineTexts ∧
    (∀ c ∈ chainChunks (sortByYMin ocr),
      List.Chain' (fun a b => sameLineClose b a = true) c) ∧
    List.Chain'
      (fun c1 c2 =>
        sameLineClose (c2.headD dfltLine) (c1.getLastD dfltLine) = false)
      (chainChunks (sortByYMin ocr)) :=
  ⟨mergeSameLineTexts_eq ocr,
   fun c hc => chainChunks_chain_aux (sortByYMin ocr).length _ (le_refl _) c hc,
   chainChunks_breaks _⟩

/-- Witness for C6 (amended) at the concrete two-fragment page. -/
theorem C6_amended_witness :
    mergeSameLineTexts [cexA, cexB] =
      (chainChunks (sortByYMin [cexA, cexB])).map mergeLineTexts ∧
    (∀ c ∈ chainChunks (sortByYMin [cexA, cexB]),
      List.Chain' (fun a b => sameLineClose b a = true) c) ∧
    List.Chain'
      (fun c1 c2 =>
        sameLineClose (c2.headD dfltLine) (c1.getLastD dfltLine) = false)
      (chainChunks (sortByYMin [cexA, cexB])) :=
  C6_amended_fixed_threshold [cexA, cexB]

/-- Claim C7: the merger output is ordered by ascending `y_min`; a cluster
of size 1 passes through unchanged; and for every nonempty cluster the
merged text is the concatenation of the fragment texts ordered
left-to-right by `x_min`, the merged confidence is the average (sum divided
by the cluster size), and the merged bounding box is the componentwise
min/max union of the fragment boxes (each extreme is attained by a fragment
corner and bounds all fragment corners). -/
theorem C7_merger_contract :
    (∀ ocr : List OcrLine,
      (mergeSameLineTexts ocr).Pairwise (fun a b => a.box.yMin ≤ b.box.yMin)) ∧
    (∀ l : OcrLine, mergeLineTexts [l] = l) ∧
    (∀ c : List OcrLine, c ≠ [] →
      (mergeLineTexts c).text = joinTexts (sortByXMin c) ∧
      (mergeLineTexts c).conf = confSum (sortByXMin c) / (c.length : ℚ) ∧
      ((mergeLineTexts c).box.yMin ∈ clusterYs c ∧
        ∀ v ∈ clusterYs c, (mergeLineTexts c).box.yMin ≤ v) ∧
      ((mergeLineTexts c).box.yMax ∈ clusterYs c ∧
        ∀ v ∈ clusterYs c, v ≤ (mergeLineTexts c).box.yMax) ∧
      ((mergeLineTexts c).box.xMin ∈ clusterXs c ∧
        ∀ v ∈ clusterXs c, (mergeLineTexts c).box.xMin ≤ v) ∧
      ((mergeLineTexts c).box.xMax ∈ clusterXs c ∧
        ∀ v ∈ clusterXs c, v ≤ (mergeLineTexts c).box.xMax)) :=
  ⟨mergeSameLineTexts_sorted,
   mergeLineTexts_singleton,
   fun _ hc =>
     ⟨mergeLineTexts_text hc, mergeLineTexts_conf hc,
      mergeLineTexts_yMin hc, mergeLineTexts_yMax hc,
      mergeLineTexts_xMin hc, mergeLineTexts_xMax hc⟩⟩

/-- Witness for C7 at a concrete unordered two-fragment cluster. -/
theorem C7_witness :
    (mergeSameLineTexts [cexA, cexB]).Pairwise
      (fun a b => a.box.yMin ≤ b.box.yMin) ∧
    mergeLineTexts [cexC] = cexC ∧
    (mergeLineTexts [cexC, cexD]).text = joinTexts (sortByXMin [cexC, cexD]) ∧
    (mergeLineTexts [cexC, cexD]).conf =
      confSum (sortByXMin [cexC, cexD]) / (([cexC, cexD].length : ℕ) : ℚ) ∧
    (mergeLineTexts [cexC, cexD]).box.yMin ∈ clusterYs [cexC, cexD] :=
  ⟨C7_merger_contract.1 [cexA, cexB],
   C7_merger_contract.2.1 cexC,
   (C7_merger_contract.2.2 [cexC, cexD] (by decide)).1,
   (C7_merger_contract.2.2 [cexC, cexD] (by decide)).2.1,
   (C7_merger_contract.2.2 [cexC, cexD] (by decide)).2.2.1.1⟩

theorem applyLookahead_nestedSubNumbers (cq2 : Question) (info : LookResult) :
    (applyLookahead cq2 info).nestedSubNumbers = cq2.nestedSubNumbers := by
  unfold applyLookahead
  repeat' split
  all_goals rfl

theorem applyLookahead_startY (cq2 : Question) (info : LookResult) :
    (applyLookahead cq2 info).startY = cq2.startY := by
  unfold applyLookahead
  repeat' split
  all_goals rfl

theorem applyLookahead_crossPage (cq2 : Question) (info : LookResult) :
    (applyLookahead cq2 info).crossPage = cq2.crossPage := by
  unfold applyLookahead
  repeat' split
  all_goals rfl

theorem applyLookahead_crossPageTo (cq2 : Question) (info : LookResult) :
    (applyLookahead cq2 info).crossPageTo = cq2.crossPageTo := by
  unfold applyLookahead
  repeat' split
  all_goals rfl

theorem applyLookahead_of_found (cq2 : Question) (info : LookResult)
    (hf : info.foundNextNested = true) : applyLookahead cq2 info = cq2 := by
  unfold applyLookahead
  simp [hf]

theorem applyLookahead_earlyEndY (cq2 : Question) (info : LookResult)
    (hf : info.foundNextNested = false) (hcp : cq2.crossPage = false) :
    (applyLookahead cq2 info).earlyEndY =
      match info.earlyEndY, cq2.earlyEndY with
      | none, old => old
      | some e, none => if cq2.startY < e then some e else none
      | some e, some ex => if cq2.startY < e ∧ e < ex then some e else some ex := by
  unfold applyLookahead
  simp only [hf, Bool.not_false, if_true, hcp, Bool.false_eq_true, if_false]
  cases hi : info.earlyEndY with
  | none => rfl
  | some e =>
    simp only [gt_iff_lt]
    cases hee : cq2.earlyEndY with
    | none =>
      by_cases hgt : cq2.startY < e
      · simp only [if_pos hgt, hee]
      · simp only [if_neg hgt, hee]
    | some ex =>
      by_cases hgt : cq2.startY < e
      · simp only [if_pos hgt, hee]
        by_cases hle : e < ex
        · rw [if_pos (And.intro hle hgt), if_pos (And.intro hgt hle)]
        · rw [if_neg (fun hand => hle (And.left hand)),
            if_neg (fun hand => hle (And.right hand))]
          exact hee
      · simp only [if_neg hgt, hee,
          if_neg (fun hand => hgt (And.left hand))]


/-- Claim C2, counterexample: the extractor appends every extracted nested
number unconditionally, so on the page `1.a`, `(1)`, `(1)` the single
emitted question carries `nested_sub_numbers = [1, 1]`, which is not
strictly increasing (a duplicate, out-of-sequence entry was appended rather
than terminating accumulation). -/
theorem C2_counterexample :
    (extractQuestionPositions ocrC2 1 noPagesFn 1).map
        (fun q => q.nestedSubNumbers) = [[1, 1]] ∧
    ¬ List.Chain' (fun a b : ℕ => a < b) [1, 1] := by
  constructor
  · with_unfolding_all decide
  · simp [List.chain'_pair]

/-- Claim C2 (amended): while a question is open, every nested-item line
whose number extraction succeeds appends that number to the accumulated
`nested_sub_numbers` unconditionally and mirrors the grown list into the
open record, leaving the emitted list untouched; no monotonicity or gap
check guards the append (the `n+1` lookahead only influences the cross-page
mark and the provisional early end). -/
theorem C2_amended_unconditional_append
    (st : ExtState) (cq : Question) (l : OcrLine) (rest : List OcrLine)
    (pageNum : ℕ) (allPages : ℕ → Option (List OcrLine)) (totalPages : ℕ)
    (n : ℕ)
    (h1 : isChineseNumberQuestion l.text = false)
    (h2 : isSubQuestion l.text = false)
    (h3 : isNestedSubQuestion l.text = true)
    (hcur : st.current = some cq)
    (hex : extractNestedSubNumber l.text = some n) :
    (processLine l rest pageNum allPages totalPages st).nested =
      st.nested ++ [n] ∧
    (processLine l rest pageNum allPages totalPages st).questions =
      st.questions ∧
    ∃ cq2, (processLine l rest pageNum allPages totalPages st).current =
        some cq2 ∧ cq2.nestedSubNumbers = st.nested ++ [n] := by
  unfold processLine
  rw [h1, h2, h3]
  simp only [Bool.false_eq_true, if_false, if_true]
  unfold handleNested
  rw [hcur, hex]
  refine ⟨rfl, rfl, ?_⟩
  refine ⟨_, rfl, ?_⟩
  rw [applyLookahead_nestedSubNumbers]
  split
  all_goals rfl

/-- Witness for C2 (amended): the out-of-sequence nested item `(3)` is
appended to the accumulation `[]` of the open record `q8`. -/
theorem C2_amended_witness :
    (processLine line2w [] 1 noPagesFn 1 st8).nested = st8.nested ++ [3] ∧
    (processLine line2w [] 1 noPagesFn 1 st8).questions = st8.questions ∧
    ∃ cq2, (processLine line2w [] 1 noPagesFn 1 st8).current = some cq2 ∧
      cq2.nestedSubNumbers = st8.nested ++ [3] :=
  C2_amended_unconditional_append st8 q8 line2w [] 1 noPagesFn 1 3
    (by decide) (by decide) (by decide) rfl (by decide)

set_option maxRecDepth 2000 in
/-- Claim C4, counterexample: when the duplicate-position guard fires, the
skipped line has already mutated the extractor state.  After opening a
question at `y = 10` and accumulating the nested number 1, the heading
`二、b` at the duplicate position 10 flushes the open record into the
emitted list and resets the nested accumulation (while leaving the flushed
record current), and the full page run emits the single opened record
twice. -/
theorem C4_counterexample :
    (processLine lineC4b [lineC4c] 1 noPagesFn 1
        (processLine lineC4a [lineC4b, lineC4c] 1 noPagesFn 1 {})).questions
        = [] ∧
    (processLine lineC4b [lineC4c] 1 noPagesFn 1
        (processLine lineC4a [lineC4b, lineC4c] 1 noPagesFn 1 {})).nested
        = [1] ∧
    pyInt lineC4c.box.yMin ∈
      (processLine lineC4b [lineC4c] 1 noPagesFn 1
        (processLine lineC4a [lineC4b, lineC4c] 1 noPagesFn 1 {})).seen ∧
    (processLine lineC4c [] 1 noPagesFn 1
      (processLine lineC4b [lineC4c] 1 noPagesFn 1
        (processLine lineC4a [lineC4b, lineC4c] 1 noPagesFn 1 {}))).questions.length
        = 1 ∧
    (processLine lineC4c [] 1 noPagesFn 1
      (processLine lineC4b [lineC4c] 1 noPagesFn 1
        (processLine lineC4a [lineC4b, lineC4c] 1 noPagesFn 1 {}))).nested
        = [] ∧
    (processLine lineC4c [] 1 noPagesFn 1
      (processLine lineC4b [lineC4c] 1 noPagesFn 1
        (processLine lineC4a [lineC4b, lineC4c] 1 noPagesFn 1 {}))).current
        = (processLine lineC4b [lineC4c] 1 noPagesFn 1
            (processLine lineC4a [lineC4b, lineC4c] 1 noPagesFn 1 {})).current ∧
    (extractQuestionPositions [lineC4a, lineC4b, lineC4c] 1 noPagesFn 1).length
        = 2 := by
  refine ⟨?_, ?_, ?_, ?_, ?_, ?_, ?_⟩
  · with_unfolding_all decide
  · with_unfolding_all decide
  · with_unfolding_all decide
  · with_unfolding_all decide
  · with_unfolding_all decide
  · rw [processLine_chinese_dup _ lineC4c [] 1 noPagesFn 1
      (by decide) (by with_unfolding_all decide)]
  · with_unfolding_all decide

/-- Claim C4 (amended): a major-heading line whose integer `start_y` is
already in the per-page seen set opens no new question and leaves the open
record, the seen set and the heading flag unchanged, but it is not free of
side effects: before the duplicate check it has already appended the open
record (when one exists) to the emitted list — leaving it current as well,
so it will be emitted again — and reset the nested accumulation to empty. -/
theorem C4_amended_duplicate_flush
    (st : ExtState) (l : OcrLine) (rest : List OcrLine) (pageNum : ℕ)
    (allPages : ℕ → Option (List OcrLine)) (totalPages : ℕ)
    (h1 : isChineseNumberQuestion l.text = true)
    (h2 : pyInt l.box.yMin ∈ st.seen) :
    (processLine l rest pageNum allPages totalPages st).current = st.current ∧
    (processLine l rest pageNum allPages totalPages st).seen = st.seen ∧
    (processLine l rest pageNum allPages totalPages st).isChineseQuestionState
      = st.isChineseQuestionState ∧
    (processLine l rest pageNum allPages totalPages st).questions =
      st.questions ++ st.current.toList ∧
    (processLine l rest pageNum allPages totalPages st).nested = [] := by
  rw [processLine_chinese_dup st l rest pageNum allPages totalPages h1 h2]
  exact ⟨rfl, rfl, rfl, rfl, rfl⟩

/-- Witness for C4 (amended) at the concrete mid-page state `st4`. -/
theorem C4_amended_witness :
    (processLine lineC4c [] 1 noPagesFn 1 st4).current = st4.current ∧
    (processLine lineC4c [] 1 noPagesFn 1 st4).seen = st4.seen ∧
    (processLine lineC4c [] 1 noPagesFn 1 st4).isChineseQuestionState
      = st4.isChineseQuestionState ∧
    (processLine lineC4c [] 1 noPagesFn 1 st4).questions =
      st4.questions ++ st4.current.toList ∧
    (processLine lineC4c [] 1 noPagesFn 1 st4).nested = [] :=
  C4_amended_duplicate_flush st4 lineC4c [] 1 noPagesFn 1
    (by decide) (by with_unfolding_all decide)

theorem samePageScan_keep (expected : ℕ) (p : ℤ × List Char) :
    ∀ w : List OcrLine, (samePageScan expected (some p) w).1 = some p := by
  intro w
  induction w with
  | nil => rfl
  | cons l rest ih =>
    simp only [samePageScan]
    split
    · split
      · rfl
      · exact ih
    · exact ih

theorem samePageScan_early_of_not_found (expected : ℕ) :
    ∀ w : List OcrLine, (samePageScan expected none w).2 = false →
      (samePageScan expected none w).1 =
        w.head?.map (fun l => (pyInt l.box.yMin, l.text.take 30)) := by
  intro w
  cases w with
  | nil => intro _; rfl
  | cons l rest =>
    intro hf
    by_cases hnest : isNestedSubQuestion l.text = true
    · by_cases hnum : extractNestedSubNumber l.text = some expected
      · simp only [samePageScan, hnest, hnum, if_true] at hf
        simp at hf
      · simp only [samePageScan, hnest, hnum, if_true, if_false] at hf ⊢
        rw [samePageScan_keep]
        simp
    · simp only [samePageScan, hnest, Bool.false_eq_true, if_false] at hf ⊢
      rw [samePageScan_keep]
      simp

theorem checkNext_cases (after : List OcrLine) (n pageNum : ℕ)
    (allPages : ℕ → Option (List OcrLine)) (totalPages : ℕ) :
    checkNextNestedSubQuestion after n pageNum allPages totalPages =
      { foundNextNested := (samePageScan (n + 1) none (after.take 3)).2
        earlyEndY := (samePageScan (n + 1) none (after.take 3)).1.map (·.1)
        earlyEndText := (samePageScan (n + 1) none (after.take 3)).1.map (·.2) } ∨
    checkNextNestedSubQuestion after n pageNum allPages totalPages =
      { foundNextNested := true, crossPage := true
        crossPageTo := some (pageNum + 1) } := by
  simp only [checkNextNestedSubQuestion]
  split
  · split
    · split
      · split
        · split
          · exact Or.inr rfl
          · exact Or.inl rfl
        · exact Or.inl rfl
      · exact Or.inl rfl
    · exact Or.inl rfl
  · exact Or.inl rfl

theorem checkNext_cross (after : List OcrLine) (n pageNum : ℕ)
    (allPages : ℕ → Option (List OcrLine)) (totalPages : ℕ)
    (h : (checkNextNestedSubQuestion after n pageNum allPages totalPages).crossPage
        = true) :
    checkNextNestedSubQuestion after n pageNum allPages totalPages =
      { foundNextNested := true, crossPage := true
        crossPageTo := some (pageNum + 1) } := by
  rcases checkNext_cases after n pageNum allPages totalPages with hc | hc
  · rw [hc] at h
    simp at h
  · exact hc

theorem checkNext_not_cross (after : List OcrLine) (n pageNum : ℕ)
    (allPages : ℕ → Option (List OcrLine)) (totalPages : ℕ)
    (h : (checkNextNestedSubQuestion after n pageNum allPages totalPages).crossPage
        = false) :
    checkNextNestedSubQuestion after n pageNum allPages totalPages =
      { foundNextNested := (samePageScan (n + 1) none (after.take 3)).2
        earlyEndY := (samePageScan (n + 1) none (after.take 3)).1.map (·.1)
        earlyEndText := (samePageScan (n + 1) none (after.take 3)).1.map (·.2) } := by
  rcases checkNext_cases after n pageNum allPages totalPages with hc | hc
  · exact hc
  · rw [hc] at h
    simp at h

theorem checkNext_early_of_not_found (after : List OcrLine) (n pageNum : ℕ)
    (allPages : ℕ → Option (List OcrLine)) (totalPages : ℕ)
    (hf : (checkNextNestedSubQuestion after n pageNum allPages totalPages).foundNextNested
        = false) :
    (checkNextNestedSubQuestion after n pageNum allPages totalPages).earlyEndY
      = after.head?.map (fun l => pyInt l.box.yMin) := by
  have hcp : (checkNextNestedSubQuestion after n pageNum allPages totalPages).crossPage
      = false := by
    rcases checkNext_cases after n pageNum allPages totalPages with hc | hc
    · rw [hc]
    · rw [hc] at hf
      simp at hf
  rw [checkNext_not_cross after n pageNum allPages totalPages hcp] at hf ⊢
  simp only [] at hf ⊢
  rw [samePageScan_early_of_not_found (n + 1) (after.take 3) hf]
  cases after with
  | nil => rfl
  | cons l rest => simp [List.take]


/-- Claim C8: outcomes of the 3-line nested-item lookahead for an accepted
nested item with value `n`.  (i) When the expected `n + 1` is found only
after crossing into the next page, no end boundary is recorded (the
provisional early end is left untouched) and the open record is marked
`cross_page = true` with `cross_page_to` set to that next page, without
being closed (the emitted list is unchanged).  (ii) When no `n + 1` is
found and no page crossing extends the match (and the record carries no
cross-page extension from an earlier item), the lookahead reports the `y`
of the first line of the window as the candidate early end, and the open
record keeps it as `early_end_y` exactly when that `y` is strictly greater
than `start_y`, a smaller candidate always overriding a larger previously
recorded early end. -/
theorem C8_lookahead_contract
    (st : ExtState) (cq : Question) (l : OcrLine) (rest : List OcrLine)
    (pageNum : ℕ) (allPages : ℕ → Option (List OcrLine)) (totalPages : ℕ)
    (n : ℕ)
    (h1 : isChineseNumberQuestion l.text = false)
    (h2 : isSubQuestion l.text = false)
    (h3 : isNestedSubQuestion l.text = true)
    (hcur : st.current = some cq)
    (hex : extractNestedSubNumber l.text = some n) :
    ((checkNextNestedSubQuestion rest n pageNum allPages totalPages).crossPage
        = true →
      ∃ cq2, (processLine l rest pageNum allPages totalPages st).current =
          some cq2 ∧
        cq2.crossPage = true ∧
        cq2.crossPageTo = some (pageNum + 1) ∧
        cq2.earlyEndY = cq.earlyEndY ∧
        (processLine l rest pageNum allPages totalPages st).questions =
          st.questions) ∧
    ((checkNextNestedSubQuestion rest n pageNum allPages totalPages).foundNextNested
        = false →
     (checkNextNestedSubQuestion rest n pageNum allPages totalPages).crossPage
        = false →
     cq.crossPage = false →
      (checkNextNestedSubQuestion rest n pageNum allPages totalPages).earlyEndY
        = rest.head?.map (fun x => pyInt x.box.yMin) ∧
      ∃ cq2, (processLine l rest pageNum allPages totalPages st).current =
          some cq2 ∧
        cq2.earlyEndY =
          (match rest.head?.map (fun x => pyInt x.box.yMin), cq.earlyEndY with
           | none, old => old
           | some e, none => if cq.startY < e then some e else none
           | some e, some ex =>
             if cq.startY < e ∧ e < ex then some e else some ex)) := by
  constructor
  · intro hc
    have hr := checkNext_cross rest n pageNum allPages totalPages hc
    unfold processLine
    rw [h1, h2, h3]
    simp only [Bool.false_eq_true, if_false, if_true]
    unfold handleNested
    rw [hcur, hex]
    simp only [hr]
    rw [applyLookahead_of_found _ _ rfl]
    refine ⟨_, rfl, ?_, ?_, ?_, ?_⟩ <;> first | rfl | trivial
  · intro hf hcp hcq
    have hearly := checkNext_early_of_not_found rest n pageNum allPages totalPages hf
    refine ⟨hearly, ?_⟩
    unfold processLine
    rw [h1, h2, h3]
    simp only [Bool.false_eq_true, if_false, if_true]
    unfold handleNested
    rw [hcur, hex]
    simp only [hcp, Bool.false_eq_true, if_false]
    refine ⟨_, rfl, ?_⟩
    have hstep := applyLookahead_earlyEndY
      { cq with nestedSubNumbers := st.nested ++ [n] }
      (checkNextNestedSubQuestion rest n pageNum allPages totalPages) hf hcq
    rw [hstep, hearly]

/-- Witness for C8 at the page break: the nested item `(1)` is the last
line of page 1 and page 2 opens with `(2)`. -/
theorem C8_lookahead_witness :
    ((checkNextNestedSubQuestion [] 1 1 allPages8 2).crossPage = true →
      ∃ cq2, (processLine line8 [] 1 allPages8 2 st8).current = some cq2 ∧
        cq2.crossPage = true ∧
        cq2.crossPageTo = some (1 + 1) ∧
        cq2.earlyEndY = q8.earlyEndY ∧
        (processLine line8 [] 1 allPages8 2 st8).questions = st8.questions) ∧
    ((checkNextNestedSubQuestion [] 1 1 allPages8 2).foundNextNested = false →
     (checkNextNestedSubQuestion [] 1 1 allPages8 2).crossPage = false →
     q8.crossPage = false →
      (checkNextNestedSubQuestion [] 1 1 allPages8 2).earlyEndY =
        ([] : List OcrLine).head?.map (fun x => pyInt x.box.yMin) ∧
      ∃ cq2, (processLine line8 [] 1 allPages8 2 st8).current = some cq2 ∧
        cq2.earlyEndY =
          (match ([] : List OcrLine).head?.map (fun x => pyInt x.box.yMin),
              q8.earlyEndY with
           | none, old => old
           | some e, none => if q8.startY < e then some e else none
           | some e, some ex =>
             if q8.startY < e ∧ e < ex then some e else some ex)) :=
  C8_lookahead_contract st8 q8 line8 [] 1 allPages8 2 1
    (by decide) (by decide) (by decide) rfl (by decide)

/-- Claim C10: a provisional early end can only originate from lines on the
same page as the nested item.  When the lookahead crosses into the next
page and finds the expected item there, the result carries no early end at
all (only the cross-page outcome, targeting the next page); in every other
case the reported early end is exactly the one computed from the same-page
window, independent of any content of later pages. -/
theorem C10_early_end_same_page_only
    (after : List OcrLine) (n pageNum totalPages : ℕ)
    (allPages : ℕ → Option (List OcrLine)) :
    ((checkNextNestedSubQuestion after n pageNum allPages totalPages).crossPage
        = true →
      (checkNextNestedSubQuestion after n pageNum allPages totalPages).earlyEndY
        = none ∧
      (checkNextNestedSubQuestion after n pageNum allPages totalPages).earlyEndText
        = none ∧
      (checkNextNestedSubQuestion after n pageNum allPages totalPages).crossPageTo
        = some (pageNum + 1)) ∧
    ((checkNextNestedSubQuestion after n pageNum allPages totalPages).crossPage
        = false →
      (checkNextNestedSubQuestion after n pageNum allPages totalPages).earlyEndY
        = (samePageScan (n + 1) none (after.take 3)).1.map (·.1) ∧
      (checkNextNestedSubQuestion after n pageNum allPages totalPages).earlyEndText
        = (samePageScan (n + 1) none (after.take 3)).1.map (·.2)) := by
  constructor
  · intro hc
    rw [checkNext_cross after n pageNum allPages totalPages hc]
    exact ⟨rfl, rfl, rfl⟩
  · intro hcp
    rw [checkNext_not_cross after n pageNum allPages totalPages hcp]
    exact ⟨rfl, rfl⟩

/-- Witness for C10 at the page break of the `allPages8` fixture (the
cross-page branch fires and carries no provisional boundary). -/
theorem C10_witness :
    (checkNextNestedSubQuestion [] 1 1 allPages8 2).earlyEndY = none ∧
    (checkNextNestedSubQuestion [] 1 1 allPages8 2).earlyEndText = none ∧
    (checkNextNestedSubQuestion [] 1 1 allPages8 2).crossPageTo = some (1 + 1) :=
  (C10_early_end_same_page_only [] 1 1 2 allPages8).1 (by decide)

theorem finalizeStep_fst (pages : List PageData) (totalPages : ℕ)
    (e : ℕ × Question) (nxt : Option (ℕ × Question)) :
    (finalizeStep pages totalPages e nxt).1 = e.1 := by
  simp only [finalizeStep]
  repeat' split
  all_goals rfl

theorem finalizeStep_startY (pages : List PageData) (totalPages : ℕ)
    (e : ℕ × Question) (nxt : Option (ℕ × Question)) :
    (finalizeStep pages totalPages e nxt).2.startY = e.2.startY := by
  simp only [finalizeStep]
  repeat' split
  all_goals rfl

theorem finalizeStep_textHeight (pages : List PageData) (totalPages : ℕ)
    (e : ℕ × Question) (nxt : Option (ℕ × Question)) :
    (finalizeStep pages totalPages e nxt).2.textHeight = e.2.textHeight := by
  simp only [finalizeStep]
  repeat' split
  all_goals rfl

theorem finalizeStep_page (pages : List PageData) (totalPages : ℕ)
    (e : ℕ × Question) (nxt : Option (ℕ × Question)) :
    (finalizeStep pages totalPages e nxt).2.page = e.2.page := by
  simp only [finalizeStep]
  repeat' split
  all_goals rfl

theorem finalizeStep_text (pages : List PageData) (totalPages : ℕ)
    (e : ℕ × Question) (nxt : Option (ℕ × Question)) :
    (finalizeStep pages totalPages e nxt).2.text = e.2.text := by
  simp only [finalizeStep]
  repeat' split
  all_goals rfl

theorem finalizeStep_questionType (pages : List PageData) (totalPages : ℕ)
    (e : ℕ × Question) (nxt : Option (ℕ × Question)) :
    (finalizeStep pages totalPages e nxt).2.questionType = e.2.questionType := by
  simp only [finalizeStep]
  repeat' split
  all_goals rfl

theorem finalizeStep_crossPage (pages : List PageData) (totalPages : ℕ)
    (e : ℕ × Question) (nxt : Option (ℕ × Question)) :
    (finalizeStep pages totalPages e nxt).2.crossPage = e.2.crossPage := by
  simp only [finalizeStep]
  repeat' split
  all_goals rfl

theorem finalizeStep_crossPageMerged (pages : List PageData) (totalPages : ℕ)
    (e : ℕ × Question) (nxt : Option (ℕ × Question)) :
    (finalizeStep pages totalPages e nxt).2.crossPageMerged
      = e.2.crossPageMerged := by
  simp only [finalizeStep]
  repeat' split
  all_goals rfl

theorem finalizeStep_crossPageEndPage (pages : List PageData) (totalPages : ℕ)
    (e : ℕ × Question) (nxt : Option (ℕ × Question)) :
    (finalizeStep pages totalPages e nxt).2.crossPageEndPage
      = e.2.crossPageEndPage := by
  simp only [finalizeStep]
  repeat' split
  all_goals rfl

theorem finalizeStep_crossPageEndY (pages : List PageData) (totalPages : ℕ)
    (e : ℕ × Question) (nxt : Option (ℕ × Question)) :
    (finalizeStep pages totalPages e nxt).2.crossPageEndY
      = e.2.crossPageEndY := by
  simp only [finalizeStep]
  repeat' split
  all_goals rfl

set_option maxHeartbeats 1000000 in
theorem finalizeStep_earlyEndY (pages : List PageData) (totalPages : ℕ)
    (e : ℕ × Question) (nxt : Option (ℕ × Question)) :
    (finalizeStep pages totalPages e nxt).2.earlyEndY =
      (if e.2.crossPageMerged = true ∨ e.2.crossPage = true then e.2.earlyEndY
       else match e.2.earlyEndY with
        | none => none
        | some ee => if e.2.startY < ee then some ee else none) := by
  obtain ⟨pageNum, q⟩ := e
  simp only [finalizeStep]
  repeat' split
  all_goals simp_all
  all_goals omega

set_option maxHeartbeats 1000000 in
theorem finalizeStep_endFields (pages : List PageData) (totalPages : ℕ)
    (e : ℕ × Question) (nxt : Option (ℕ × Question)) :
    endFields (finalizeStep pages totalPages e nxt).2 =
      specEndResolution pages totalPages e nxt := by
  obtain ⟨pageNum, q⟩ := e
  simp only [finalizeStep, specEndResolution, endFields]
  repeat' split
  all_goals simp_all
  all_goals omega

set_option maxRecDepth 4000 in
/-- Claim C3, counterexample to rule (f) as stated: on a two-page document
whose single question lives on page 1 (height 1000) and whose last page has
height 2000, the pipeline ends the record at 97% of its OWN page's height
(970), while the claim's rule (f) — 97% of the LAST page's height — would
give 1940. The `end_page`, however, is the last page. -/
theorem C3_counterexample :
    (analyzeAllPages [pageC3a, pageC3b]).map endFields = [(some 970, some 2)] ∧
    endFields (finalizeStep [pageC3a, pageC3b] 2 (1, qC3) none).2 =
      (some 970, some 2) ∧
    specEndResolutionOrig [pageC3a, pageC3b] 2 (1, qC3) none =
      (some 1940, some 2) := by
  refine ⟨?_, ?_, ?_⟩
  · with_unfolding_all decide
  · with_unfolding_all decide
  · with_unfolding_all decide

/-- Claim C3 (amended): the end-resolution body applies, per record, the
first matching rule of the priority order (a) cross-page merged, (b)
unresolved cross-page, (c) valid early end (`> start_y`, used directly),
(d) next record on the same page (`next start_y` minus 30% of the next
record's text height), (e) next record on a different page (97% of the
current page height, flagged potential cross-page), (f) last record overall
— where rule (f) takes 97% of the record's OWN page height (not the last
page's) while setting `end_page` to the last page. -/
theorem C3_amended_end_resolution (pages : List PageData) (totalPages : ℕ)
    (e : ℕ × Question) (nxt : Option (ℕ × Question)) :
    endFields (finalizeStep pages totalPages e nxt).2 =
      specEndResolution pages totalPages e nxt :=
  finalizeStep_endFields pages totalPages e nxt
set_option maxHeartbeats 1000000 in
theorem specEndResolution_finalized (pages : List PageData) (T : ℕ)
    (e : ℕ × Question) (nxt nxt2 : Option (ℕ × Question))
    (h1 : Option.map Prod.fst nxt2 = Option.map Prod.fst nxt)
    (h2 : Option.map (fun x => x.2.startY) nxt2 =
          Option.map (fun x => x.2.startY) nxt)
    (h3 : Option.map (fun x => x.2.textHeight) nxt2 =
          Option.map (fun x => x.2.textHeight) nxt) :
    specEndResolution pages T (finalizeStep pages T e nxt) nxt2 =
      specEndResolution pages T e nxt := by
  obtain ⟨p, q⟩ := e
  simp only [specEndResolution, finalizeStep_fst, finalizeStep_crossPageMerged,
    finalizeStep_crossPage, finalizeStep_crossPageEndPage,
    finalizeStep_crossPageEndY, finalizeStep_startY, finalizeStep_earlyEndY]
  cases nxt <;> cases nxt2 <;> simp_all <;> (repeat' split) <;> simp_all
  all_goals cases hq : q.earlyEndY <;> simp_all

theorem finalizeStep_endFields_stable (pages : List PageData) (T : ℕ)
    (e : ℕ × Question) (nxt nxt2 : Option (ℕ × Question))
    (h1 : Option.map Prod.fst nxt2 = Option.map Prod.fst nxt)
    (h2 : Option.map (fun x => x.2.startY) nxt2 =
          Option.map (fun x => x.2.startY) nxt)
    (h3 : Option.map (fun x => x.2.textHeight) nxt2 =
          Option.map (fun x => x.2.textHeight) nxt) :
    endFields (finalizeStep pages T (finalizeStep pages T e nxt) nxt2).2 =
      endFields (finalizeStep pages T e nxt).2 := by
  rw [finalizeStep_endFields, finalizeStep_endFields,
    specEndResolution_finalized pages T e nxt nxt2 h1 h2 h3]

theorem finalizeEntries_shape (pages : List PageData) (T : ℕ)
    (f : ℕ × Question) :
    ∀ rest : List (ℕ × Question), ∃ nxt l2,
      finalizeEntries pages T (f :: rest) = finalizeStep pages T f nxt :: l2 := by
  intro rest
  cases rest with
  | nil => exact ⟨none, [], rfl⟩
  | cons g gs => exact ⟨some g, finalizeEntries pages T (g :: gs), rfl⟩

theorem finalizeEntries_endFields_idem (pages : List PageData) (T : ℕ) :
    ∀ l : List (ℕ × Question),
      (finalizeEntries pages T (finalizeEntries pages T l)).map
          (fun x => endFields x.2) =
        (finalizeEntries pages T l).map (fun x => endFields x.2) := by
  intro l
  induction l with
  | nil => rfl
  | cons e tail ih =>
    cases tail with
    | nil =>
      simp only [finalizeEntries, List.map]
      rw [finalizeStep_endFields_stable pages T e none none rfl rfl rfl]
    | cons f rest =>
      obtain ⟨nxt, l2, hfl⟩ := finalizeEntries_shape pages T f rest
      have hstep : finalizeEntries pages T (e :: f :: rest) =
          finalizeStep pages T e (some f) ::
            finalizeEntries pages T (f :: rest) := rfl
      rw [hstep, hfl]
      have hstep2 : finalizeEntries pages T
          (finalizeStep pages T e (some f) ::
            finalizeStep pages T f nxt :: l2) =
          finalizeStep pages T (finalizeStep pages T e (some f))
              (some (finalizeStep pages T f nxt)) ::
            finalizeEntries pages T (finalizeStep pages T f nxt :: l2) := rfl
      rw [hstep2, List.map_cons, List.map_cons]
      congr 1
      · exact finalizeStep_endFields_stable pages T e (some f)
          (some (finalizeStep pages T f nxt))
          (by simp [finalizeStep_fst])
          (by simp [finalizeStep_startY])
          (by simp [finalizeStep_textHeight])
      · rw [← hfl]
        exact ih

/-- Claim C9: running the end-resolution pass a second time on an
already-finalized list changes no end field — the `(end_y, end_page)` pairs
of the twice-finalized list equal those of the once-finalized list, for
every input list. -/
theorem C9_finalize_idempotent (pages : List PageData) (totalPages : ℕ)
    (l : List (ℕ × Question)) :
    (finalizeEntries pages totalPages
        (finalizeEntries pages totalPages l)).map (fun x => endFields x.2) =
      (finalizeEntries pages totalPages l).map (fun x => endFields x.2) :=
  finalizeEntries_endFields_idem pages totalPages l
theorem idFields_refineTextHeight (pages : List PageData) (p : ℕ)
    (q : Question) : idFields (refineTextHeight pages p q) = idFields q := by
  simp only [refineTextHeight, idFields]
  split <;> rfl

theorem idFields_finalizeStep (pages : List PageData) (T : ℕ)
    (e : ℕ × Question) (nxt : Option (ℕ × Question)) :
    idFields (finalizeStep pages T e nxt).2 = idFields e.2 := by
  simp only [idFields, finalizeStep_startY, finalizeStep_page,
    finalizeStep_text, finalizeStep_questionType]

theorem finalizeEntries_idFields (pages : List PageData) (T : ℕ) :
    ∀ l : List (ℕ × Question),
      (finalizeEntries pages T l).map (fun e => idFields e.2) =
        l.map (fun e => idFields e.2) := by
  intro l
  induction l with
  | nil => rfl
  | cons e tail ih =>
    cases tail with
    | nil =>
      simp only [finalizeEntries, List.map]
      rw [idFields_finalizeStep]
    | cons f rest =>
      have hstep : finalizeEntries pages T (e :: f :: rest) =
          finalizeStep pages T e (some f) ::
            finalizeEntries pages T (f :: rest) := rfl
      rw [hstep, List.map_cons, idFields_finalizeStep, ih]
      simp

set_option maxRecDepth 4000 in
/-- Claim C5, counterexample: on a page with two major headings sharing the
integer position `y = 10`, the second heading's duplicate-position skip
happens only after the open record was flushed, while the still-open record
is the very same one — so the single opened record (`一、`) appears TWICE in
the final output (and the second heading never opens a record at all). -/
theorem C5_counterexample :
    (analyzeAllPages [pageC5]).map (fun q => (q.startY, q.text)) =
      [((10 : ℤ), ['一', '、']), (10, ['一', '、'])] := by
  with_unfolding_all decide

/-- Claim C5 (amended): across the collection, text-height refinement and
end-resolution passes no record is destroyed and none is duplicated — the
identity fields (`start_y`, page, text, class) of the final list are exactly
those of the collected list, in order. The extractor itself, however, can
emit one opened record twice when a duplicate opening position follows it
(see the counterexample). -/
theorem C5_amended_passes_preserve (pages : List PageData) (totalPages : ℕ)
    (l : List (ℕ × Question)) :
    (finalizeEntries pages totalPages
        (l.map (fun e => (e.1, refineTextHeight pages e.1 e.2)))).map
        (fun e => idFields e.2) =
      l.map (fun e => idFields e.2) := by
  rw [finalizeEntries_idFields, List.map_map]
  refine List.map_congr_left ?_
  intro e _
  exact idFields_refineTextHeight pages e.1 e.2
theorem pyInt_nonneg {q : ℚ} (h : 0 ≤ q) : 0 ≤ pyInt q := by
  unfold pyInt
  exact Int.tdiv_nonneg (Rat.num_nonneg.2 h) (Int.ofNat_nonneg q.den)

theorem ysNonneg_yMin {l : OcrLine} (h : ysNonneg l) : 0 ≤ l.box.yMin :=
  h _ (quad_yMin_mem l.box)

theorem mergeLineTexts_ysNonneg {c : List OcrLine} (hne : c ≠ [])
    (h : ∀ x ∈ c, ysNonneg x) : ysNonneg (mergeLineTexts c) := by
  match c with
  | [l] => exact h l (List.mem_singleton.2 rfl)
  | l :: l2 :: ls =>
    rw [mergeLineTexts_multi]
    intro v hv
    have hsne : sortByXMin (l :: l2 :: ls) ≠ [] :=
      sortByXMin_ne_nil (by simp)
    have hcne : clusterYs (sortByXMin (l :: l2 :: ls)) ≠ [] :=
      clusterYs_ne_nil hsne
    simp only [Quad.yList, List.mem_cons, List.not_mem_nil, or_false] at hv
    have hmn : 0 ≤ listMin1 (clusterYs (sortByXMin (l :: l2 :: ls))) := by
      have hm := listMin1_mem hcne
      rcases mem_clusterYs.1 hm with ⟨li, hli, hvm⟩
      have hli2 : li ∈ l :: l2 :: ls := mem_sortByKey.1 hli
      exact h li hli2 _ hvm
    have hmx : 0 ≤ listMax1 (clusterYs (sortByXMin (l :: l2 :: ls))) := by
      have hm := listMax1_mem hcne
      rcases mem_clusterYs.1 hm with ⟨li, hli, hvm⟩
      have hli2 : li ∈ l :: l2 :: ls := mem_sortByKey.1 hli
      exact h li hli2 _ hvm
    rcases hv with h1 | h1 | h1 | h1 <;> rw [h1] <;> assumption

theorem mergeSameLineTexts_ysNonneg {ls : List OcrLine}
    (h : ∀ l ∈ ls, ysNonneg l) :
    ∀ x ∈ mergeSameLineTexts ls, ysNonneg x := by
  intro x hx
  rw [mergeSameLineTexts_eq] at hx
  rcases List.mem_map.1 hx with ⟨c, hc, rfl⟩
  have hcne : c ≠ [] := chainChunks_ne_nil c hc
  refine mergeLineTexts_ysNonneg hcne ?_
  intro y hy
  have hys : y ∈ sortByYMin ls := chainChunks_mem_of_mem hc hy
  exact h y (mem_sortByKey.1 hys)
theorem flush_startY_nonneg {st : ExtState}
    (hq : ∀ q ∈ st.questions, 0 ≤ q.startY)
    (hc : ∀ q, st.current = some q → 0 ≤ q.startY) :
    ∀ q ∈ st.questions ++ st.current.toList, 0 ≤ q.startY := by
  intro q hq2
  rcases List.mem_append.1 hq2 with h | h
  · exact hq q h
  · cases hcur : st.current with
    | none => rw [hcur] at h; simp at h
    | some c =>
      rw [hcur] at h
      simp only [Option.toList_some, List.mem_singleton] at h
      exact h ▸ hc c hcur

theorem processLine_startY_nonneg (l : OcrLine) (rest : List OcrLine)
    (pageNum : ℕ) (allPages : ℕ → Option (List OcrLine)) (totalPages : ℕ)
    (st : ExtState) (hl : ysNonneg l)
    (hq : ∀ q ∈ st.questions, 0 ≤ q.startY)
    (hc : ∀ q, st.current = some q → 0 ≤ q.startY) :
    (∀ q ∈ (processLine l rest pageNum allPages totalPages st).questions,
        0 ≤ q.startY) ∧
    (∀ q, (processLine l rest pageNum allPages totalPages st).current = some q →
        0 ≤ q.startY) := by
  have hqs := flush_startY_nonneg hq hc
  have hyl : 0 ≤ pyInt l.box.yMin := pyInt_nonneg (ysNonneg_yMin hl)
  unfold processLine
  split
  · -- handleChinese
    simp only [handleChinese]
    split
    · exact ⟨hqs, fun q h => hc q h⟩
    · refine ⟨hqs, ?_⟩
      intro q h
      simp only [Option.some.injEq] at h
      rw [← h]
      exact hyl
  split
  · -- handleSub
    simp only [handleSub]
    split
    · exact ⟨hq, hc⟩
    · split
      · exact ⟨hqs, fun q h => hc q h⟩
      · refine ⟨hqs, ?_⟩
        intro q h
        simp only [Option.some.injEq] at h
        rw [← h]
        exact hyl
  split
  · -- handleNested
    cases hcur : st.current with
    | none =>
      simp only [handleNested, hcur]
      exact ⟨hq, fun q h => hc q (hcur ▸ h)⟩
    | some cq =>
      simp only [handleNested, hcur]
      cases hn : extractNestedSubNumber l.text with
      | none =>
        simp only [hn]
        exact ⟨hq, fun q h => hc q (hcur ▸ h)⟩
      | some n =>
        simp only [hn]
        refine ⟨hq, ?_⟩
        intro q h
        simp only [Option.some.injEq] at h
        rw [← h, applyLookahead_startY]
        have hpres : (if (checkNextNestedSubQuestion rest n pageNum allPages totalPages).crossPage then
            { { cq with nestedSubNumbers := st.nested ++ [n] } with
              crossPage := true
              crossPageTo := (checkNextNestedSubQuestion rest n pageNum allPages totalPages).crossPageTo }
          else { cq with nestedSubNumbers := st.nested ++ [n] }).startY = cq.startY := by
          split <;> rfl
        rw [hpres]
        exact hc cq hcur
  split
  · -- handleOther
    simp only [handleOther]
    have hupd : ∀ q,
        (match st.current with
         | none => none
         | some cq =>
           match cq.earlyEndY with
           | some ee =>
             if pyInt l.box.yMin < ee then
               some { cq with earlyEndY := some (pyInt l.box.yMin),
                              earlyEndText := some (l.text.take 30) }
             else some cq
           | none => some cq) = some q → 0 ≤ q.startY := by
      intro q h
      cases hcur : st.current with
      | none => rw [hcur] at h; simp at h
      | some cq =>
        rw [hcur] at h
        have hcq := hc cq hcur
        cases he : cq.earlyEndY with
        | none =>
          simp only [he, Option.some.injEq] at h
          exact h ▸ hcq
        | some ee =>
          simp only [he] at h
          split at h
          · simp only [Option.some.injEq] at h
            rw [← h]
            exact hcq
          · simp only [Option.some.injEq] at h
            exact h ▸ hcq
    have hqs2 : ∀ q ∈ st.questions ++
        (match st.current with
         | none => none
         | some cq =>
           match cq.earlyEndY with
           | some ee =>
             if pyInt l.box.yMin < ee then
               some { cq with earlyEndY := some (pyInt l.box.yMin),
                              earlyEndText := some (l.text.take 30) }
             else some cq
           | none => some cq).toList, 0 ≤ q.startY := by
      intro q h2
      rcases List.mem_append.1 h2 with h2 | h2
      · exact hq q h2
      · cases hu : (match st.current with
         | none => none
         | some cq =>
           match cq.earlyEndY with
           | some ee =>
             if pyInt l.box.yMin < ee then
               some { cq with earlyEndY := some (pyInt l.box.yMin),
                              earlyEndText := some (l.text.take 30) }
             else some cq
           | none => some cq) with
        | none => rw [hu] at h2; simp at h2
        | some u =>
          rw [hu] at h2
          simp only [Option.toList_some, List.mem_singleton] at h2
          exact h2 ▸ hupd u hu
      
    split
    · exact ⟨hqs2, hupd⟩
    · refine ⟨hqs2, ?_⟩
      intro q h
      simp only [Option.some.injEq] at h
      rw [← h]
      exact hyl
  · exact ⟨hq, hc⟩
theorem extractGo_startY_nonneg (pageNum : ℕ)
    (allPages : ℕ → Option (List OcrLine)) (totalPages : ℕ) :
    ∀ (ls : List OcrLine) (st : ExtState),
      (∀ l ∈ ls, ysNonneg l) →
      (∀ q ∈ st.questions, 0 ≤ q.startY) →
      (∀ q, st.current = some q → 0 ≤ q.startY) →
      (∀ q ∈ (extractGo pageNum allPages totalPages ls st).questions,
          0 ≤ q.startY) ∧
      (∀ q, (extractGo pageNum allPages totalPages ls st).current = some q →
          0 ≤ q.startY) := by
  intro ls
  induction ls with
  | nil => intro st _ hq hc; exact ⟨hq, hc⟩
  | cons l rest ih =>
    intro st hls hq hc
    have hstep := processLine_startY_nonneg l rest pageNum allPages totalPages st
      (hls l (List.mem_cons_self l rest)) hq hc
    exact ih _ (fun x hx => hls x (List.mem_cons_of_mem l hx)) hstep.1 hstep.2

theorem extractQuestionPositions_startY_nonneg (ocr : List OcrLine)
    (pageNum : ℕ) (allPages : ℕ → Option (List OcrLine)) (totalPages : ℕ)
    (hls : ∀ l ∈ ocr, ysNonneg l) :
    ∀ q ∈ extractQuestionPositions ocr pageNum allPages totalPages,
      0 ≤ q.startY := by
  have h := extractGo_startY_nonneg pageNum allPages totalPages ocr {} hls
    (by intro q hq2; simp at hq2) (by intro q hq2; exact nomatch hq2)
  exact flush_startY_nonneg h.1 h.2

theorem resolvePending_startY (pages : List PageData) (totalPages pageIdx : ℕ)
    (ocr : List OcrLine) (qp : Question × ℕ) :
    (∀ qp2, (resolvePending pages totalPages pageIdx ocr qp).1 = some qp2 →
      qp2.1.startY = qp.1.startY) ∧
    (∀ e ∈ (resolvePending pages totalPages pageIdx ocr qp).2,
      e.2.startY = qp.1.startY) := by
  constructor
  · intro qp2 h
    simp only [resolvePending] at h
    repeat' split at h
    all_goals simp_all
    all_goals rw [← h]
  · intro e he
    simp only [resolvePending] at he
    repeat' split at he
    all_goals simp_all

theorem collectQuestion_inv (pages : List PageData) (pageIdx : ℕ)
    (st : P2State) (q : Question) (hq : 0 ≤ q.startY)
    (hcol : ∀ e ∈ st.collected, 0 ≤ e.2.startY)
    (hpend : ∀ qp, st.pending = some qp → 0 ≤ qp.1.startY) :
    (∀ e ∈ (collectQuestion pages pageIdx st q).collected, 0 ≤ e.2.startY) ∧
    (∀ qp, (collectQuestion pages pageIdx st q).pending = some qp →
      0 ≤ qp.1.startY) := by
  unfold collectQuestion
  split
  · refine ⟨hcol, ?_⟩
    intro qp h
    simp only [Option.some.injEq] at h
    rw [← h]
    exact hq
  · refine ⟨?_, hpend⟩
    intro e he
    rcases List.mem_append.1 he with h | h
    · exact hcol e h
    · simp only [List.mem_singleton] at h
      rw [h]
      exact hq

theorem foldl_collectQuestion_inv (pages : List PageData) (pageIdx : ℕ) :
    ∀ (qs : List Question) (st : P2State),
      (∀ q ∈ qs, 0 ≤ q.startY) →
      (∀ e ∈ st.collected, 0 ≤ e.2.startY) →
      (∀ qp, st.pending = some qp → 0 ≤ qp.1.startY) →
      (∀ e ∈ (qs.foldl (collectQuestion pages pageIdx) st).collected,
          0 ≤ e.2.startY) ∧
      (∀ qp, (qs.foldl (collectQuestion pages pageIdx) st).pending = some qp →
          0 ≤ qp.1.startY) := by
  intro qs
  induction qs with
  | nil => intro st _ h1 h2; exact ⟨h1, h2⟩
  | cons q rest ih =>
    intro st hqs h1 h2
    have hstep := collectQuestion_inv pages pageIdx st q
      (hqs q (List.mem_cons_self _ _)) h1 h2
    exact ih _ (fun x hx => hqs x (List.mem_cons_of_mem _ hx)) hstep.1 hstep.2

theorem phase2Page_inv (pages : List PageData) (totalPages : ℕ)
    (allPages : ℕ → Option (List OcrLine)) (pageIdx : ℕ) (st : P2State)
    (hlines : ∀ l ∈ (getPageD pages pageIdx).lines, ysNonneg l)
    (h1 : ∀ e ∈ st.collected, 0 ≤ e.2.startY)
    (h2 : ∀ qp, st.pending = some qp → 0 ≤ qp.1.startY) :
    (∀ e ∈ (phase2Page pages totalPages allPages pageIdx st).collected,
        0 ≤ e.2.startY) ∧
    (∀ qp, (phase2Page pages totalPages allPages pageIdx st).pending = some qp →
        0 ≤ qp.1.startY) := by
  cases hp : st.pending with
  | none =>
    simp only [phase2Page, hp]
    refine foldl_collectQuestion_inv pages pageIdx _ _
      (extractQuestionPositions_startY_nonneg _ _ _ _ hlines) ?_ ?_
    · intro e he
      exact h1 e (by simpa using he)
    · intro qp h
      exact nomatch h
  | some qp =>
    simp only [phase2Page, hp]
    have hres := resolvePending_startY pages totalPages pageIdx
      (getPageD pages pageIdx).lines qp
    have hqp := h2 qp hp
    refine foldl_collectQuestion_inv pages pageIdx _ _
      (extractQuestionPositions_startY_nonneg _ _ _ _ hlines) ?_ ?_
    · intro e he
      rcases List.mem_append.1 he with h | h
      · exact h1 e h
      · rw [hres.2 e h]
        exact hqp
    · intro qp2 h
      rw [hres.1 qp2 h]
      exact hqp

theorem phase2Go_inv (pages : List PageData) (totalPages : ℕ)
    (allPages : ℕ → Option (List OcrLine))
    (hall : ∀ p, ∀ l ∈ (getPageD pages p).lines, ysNonneg l) :
    ∀ (idxs : List ℕ) (st : P2State),
      (∀ e ∈ st.collected, 0 ≤ e.2.startY) →
      (∀ qp, st.pending = some qp → 0 ≤ qp.1.startY) →
      (∀ e ∈ (phase2Go pages totalPages allPages idxs st).collected,
          0 ≤ e.2.startY) ∧
      (∀ qp, (phase2Go pages totalPages allPages idxs st).pending = some qp →
          0 ≤ qp.1.startY) := by
  intro idxs
  induction idxs with
  | nil => intro st h1 h2; exact ⟨h1, h2⟩
  | cons i rest ih =>
    intro st h1 h2
    have hstep := phase2Page_inv pages totalPages allPages i st (hall i) h1 h2
    exact ih _ hstep.1 hstep.2

theorem getPageD_lines_nonneg {pages : List PageData}
    (h : ∀ pg ∈ pages, ∀ l ∈ pg.lines, ysNonneg l) (p : ℕ) :
    ∀ l ∈ (getPageD pages p).lines, ysNonneg l := by
  unfold getPageD
  by_cases hp : p - 1 < pages.length
  · rw [List.getD_eq_getElem _ _ hp]
    exact h _ (List.getElem_mem hp)
  · rw [List.getD_eq_default _ _ (le_of_not_lt hp)]
    intro l hl
    simp [dfltPage] at hl

theorem refineTextHeight_startY (pages : List PageData) (p : ℕ)
    (q : Question) : (refineTextHeight pages p q).startY = q.startY := by
  simp only [refineTextHeight]
  split <;> rfl

theorem mem_finalizeEntries (pages : List PageData) (T : ℕ) :
    ∀ (l : List (ℕ × Question)) (x : ℕ × Question),
      x ∈ finalizeEntries pages T l →
      ∃ e ∈ l, ∃ nxt, x = finalizeStep pages T e nxt := by
  intro l
  induction l with
  | nil => intro x hx; simp [finalizeEntries] at hx
  | cons e tail ih =>
    cases tail with
    | nil =>
      intro x hx
      simp only [finalizeEntries, List.mem_singleton] at hx
      exact ⟨e, List.mem_singleton.2 rfl, none, hx⟩
    | cons f rest =>
      intro x hx
      have hstep : finalizeEntries pages T (e :: f :: rest) =
          finalizeStep pages T e (some f) ::
            finalizeEntries pages T (f :: rest) := rfl
      rw [hstep] at hx
      rcases List.mem_cons.1 hx with h | h
      · exact ⟨e, List.mem_cons_self _ _, some f, h⟩
      · rcases ih x h with ⟨e2, he2, nxt, hx2⟩
        exact ⟨e2, List.mem_cons_of_mem _ he2, nxt, hx2⟩
theorem finalizeStep_early_consistent (pages : List PageData) (T : ℕ)
    (e : ℕ × Question) (nxt : Option (ℕ × Question)) (ee : ℤ)
    (h : (finalizeStep pages T e nxt).2.earlyEndY = some ee)
    (hcp : (finalizeStep pages T e nxt).2.crossPage = false)
    (hcm : (finalizeStep pages T e nxt).2.crossPageMerged = false) :
    (finalizeStep pages T e nxt).2.endY = some ee ∧
      (finalizeStep pages T e nxt).2.startY < ee := by
  rw [finalizeStep_crossPage] at hcp
  rw [finalizeStep_crossPageMerged] at hcm
  rw [finalizeStep_earlyEndY, hcm, hcp] at h
  simp at h
  cases he : e.2.earlyEndY with
  | none => rw [he] at h; simp at h
  | some ex =>
    rw [he] at h
    have h2 : (if e.2.startY < ex then some ex else (none : Option ℤ)) =
        some ee := h
    by_cases hlt : e.2.startY < ex
    · rw [if_pos hlt] at h2
      injection h2 with h3
      subst h3
      have hspec : specEndResolution pages T e nxt = (some ex, some e.1) := by
        simp only [specEndResolution, hcm, hcp, he, Bool.false_eq_true,
          if_false, hlt]
        simp
      have hef := (finalizeStep_endFields pages T e nxt).trans hspec
      refine ⟨?_, ?_⟩
      · have := congrArg Prod.fst hef
        simpa [endFields] using this
      · rw [finalizeStep_startY]
        exact hlt
    · rw [if_neg hlt] at h2
      exact absurd h2 (by simp)
theorem collected_startY_nonneg (pages : List PageData) (T : ℕ)
    (allPages : ℕ → Option (List OcrLine))
    (hall : ∀ p, ∀ l ∈ (getPageD pages p).lines, ysNonneg l)
    (idxs : List ℕ) :
    ∀ c ∈ (phase2Go pages T allPages idxs {}).collected ++
        (match (phase2Go pages T allPages idxs {}).pending with
         | some qp => [(qp.2, { qp.1 with
             imageHeight := some (getPageD pages qp.2).height
             imageWidth := some (getPageD pages qp.2).width })]
         | none => []), 0 ≤ c.2.startY := by
  have hinv := phase2Go_inv pages T allPages hall idxs {}
    (by intro e he; simp at he) (by intro qp h; exact nomatch h)
  intro c hc
  rcases List.mem_append.1 hc with h | h
  · exact hinv.1 c h
  · cases hp : (phase2Go pages T allPages idxs {}).pending with
    | none => rw [hp] at h; simp at h
    | some qp =>
      rw [hp] at h
      simp only [List.mem_singleton] at h
      rw [h]
      exact hinv.2 qp hp

theorem analyzeAllPages_inv (rawPages : List PageData)
    (hnn : ∀ pg ∈ rawPages, ∀ l ∈ pg.lines, ysNonneg l) :
    ∀ q ∈ analyzeAllPages rawPages,
      0 ≤ q.startY ∧
      (∀ ee, q.earlyEndY = some ee → q.crossPage = false →
        q.crossPageMerged = false → q.endY = some ee ∧ q.startY < ee) := by
  intro q hq
  have hmerged : ∀ pg ∈ rawPages.map
      (fun p => { p with lines := mergeSameLineTexts p.lines }),
      ∀ l ∈ pg.lines, ysNonneg l := by
    intro pg hpg
    rcases List.mem_map.1 hpg with ⟨p0, hp0, rfl⟩
    exact mergeSameLineTexts_ysNonneg (hnn p0 hp0)
  simp only [analyzeAllPages] at hq
  rcases List.mem_map.1 hq with ⟨x, hx, rfl⟩
  rcases mem_finalizeEntries _ _ _ x hx with ⟨en, hen, nxt, rfl⟩
  rcases List.mem_map.1 hen with ⟨c, hc, rfl⟩
  have hcs : 0 ≤ c.2.startY :=
    collected_startY_nonneg _ _ _ (getPageD_lines_nonneg hmerged) _ c hc
  constructor
  · rw [finalizeStep_startY]
    show 0 ≤ (refineTextHeight _ c.1 c.2).startY
    rw [refineTextHeight_startY]
    exact hcs
  · intro ee hee hcp hcm
    exact finalizeStep_early_consistent _ _ _ _ ee hee hcp hcm
/-- Claim C1 (amended): for recognizer input whose bounding-box y
coordinates are non-negative, every finalized record of the full pipeline
has `start_y >= 0`; and whenever a record's end came from a valid early end
(`early_end_y` still set on a record with no cross-page marks),
`end_y = early_end_y > start_y`.  In general `end_y > start_y` does NOT
hold: the 97%-page-height fallbacks can land above `start_y` (see the
counterexample). -/
theorem C1_amended_nonneg_start (rawPages : List PageData)
    (hnn : ∀ pg ∈ rawPages, ∀ l ∈ pg.lines, ysNonneg l) :
    ∀ q ∈ analyzeAllPages rawPages,
      0 ≤ q.startY ∧
      (∀ ee, q.earlyEndY = some ee → q.crossPage = false →
        q.crossPageMerged = false → q.endY = some ee ∧ q.startY < ee) :=
  analyzeAllPages_inv rawPages hnn

set_option maxRecDepth 4000 in
/-- Witness for C1 (amended): the single-page fixture satisfies the
non-negativity hypothesis and its sole finalized record has
`start_y = 10 >= 0`. -/
theorem C1_witness :
    0 ≤ ((analyzeAllPages [pageC1w]).headD dfltQuestion).startY := by
  have hne : analyzeAllPages [pageC1w] ≠ [] := by with_unfolding_all decide
  have h := (C1_amended_nonneg_start [pageC1w] (by with_unfolding_all decide))
    ((analyzeAllPages [pageC1w]).head hne) (List.head_mem hne)
  rw [List.headD_eq_head?, List.head?_eq_head hne, Option.getD_some]
  exact h.1

set_option maxRecDepth 4000 in
/-- Claim C1, counterexample: a question opening at `y = 999` on a page of
height 1000 is finalized with `end_y = 970 < start_y = 999` (rule (f)'s
97%-height fallback), refuting `end_y > start_y`. -/
theorem C1_counterexample :
    (analyzeAllPages [pageC1]).map (fun q => (q.startY, q.endY)) =
      [((999 : ℤ), some (970 : ℤ))] ∧ ¬(970 : ℤ) > (999 : ℤ) := by
  constructor
  · with_unfolding_all decide
  · decide
